import Mathlib

/-!
# libwebcash — verification of the wallet-core primitives

A shallow embedding of the libwebcash wallet-core library (`webcash.c`,
`webcash.h`) together with proofs about the embedded definitions.

Modelling conventions:
* Byte-counted strings (`bstring`) are modelled as `List Nat`, each element a
  byte value `< 256`.  The `slen < 0` / `mlen < slen` / `data == NULL`
  sanity checks of the C code are unrepresentable in this model (a
  `List Nat` is always a structurally valid string); the `NULL`-pointer
  states of optional fields are modelled with `Option`.
* C `uint64_t` arithmetic is carried out on `Nat`.  Every arithmetic step of
  the source is guarded by an explicit overflow check before it is performed,
  so the guarded operations never exceed `UINT64_MAX` and plain `Nat`
  arithmetic is exact.
* Out-parameters that the C code writes through pointers are modelled by
  explicit state passing: the function receives the previous contents of the
  out-cells and returns their new contents together with the error code.
* Memory allocation is modelled as always succeeding; the
  `WC_ERROR_OUT_OF_MEMORY` branches of the source are therefore not taken in
  the model.
* SHA-256 comes from the external libsha2 library (not part of this
  repository); it is modelled from the spec (FIPS 180-4 as referenced by the
  spec's tagged-hash and mining sections) and validated against the digests
  recorded in the repository's test suite.
-/

/-- The `wc_error` enumeration of `webcash.h`.  `WC_SUCCESS = 0` and the
error codes follow in declaration order with values `1, 2, …, 13`. -/
inductive WcErr where
  | WC_SUCCESS
  | WC_ERROR_INVALID_ARGUMENT
  | WC_ERROR_INSUFFICIENT_CAPACITY
  | WC_ERROR_OUT_OF_MEMORY
  | WC_ERROR_OVERFLOW
  | WC_ERROR_DB_CLOSED
  | WC_ERROR_DB_OPEN_FAILED
  | WC_ERROR_DB_CORRUPT
  | WC_ERROR_LOG_OPEN_FAILED
  | WC_ERROR_NOT_CONNECTED
  | WC_ERROR_CONNECT_FAILED
  | WC_ERROR_HEADLESS
  | WC_ERROR_STARTUP_FAILED
  | WC_ERROR_UNKNOWN
  deriving DecidableEq, Repr

/-- The integer value of a `wc_error_t`, per the enum declaration order. -/
def wcErrToInt : WcErr → Int
  | .WC_SUCCESS => 0
  | .WC_ERROR_INVALID_ARGUMENT => 1
  | .WC_ERROR_INSUFFICIENT_CAPACITY => 2
  | .WC_ERROR_OUT_OF_MEMORY => 3
  | .WC_ERROR_OVERFLOW => 4
  | .WC_ERROR_DB_CLOSED => 5
  | .WC_ERROR_DB_OPEN_FAILED => 6
  | .WC_ERROR_DB_CORRUPT => 7
  | .WC_ERROR_LOG_OPEN_FAILED => 8
  | .WC_ERROR_NOT_CONNECTED => 9
  | .WC_ERROR_CONNECT_FAILED => 10
  | .WC_ERROR_HEADLESS => 11
  | .WC_ERROR_STARTUP_FAILED => 12
  | .WC_ERROR_UNKNOWN => 13

/-- `isdigit(c)` for a byte value: ASCII `'0'..'9'`. -/
def wcIsDigit (c : Nat) : Bool := 48 ≤ c && c ≤ 57

/-- `UINT64_MAX`. -/
def UINT64_MAX : Nat := 18446744073709551615

/-- `INT64_MAX` (as an unsigned magnitude). -/
def INT64_MAX : Nat := 9223372036854775807

/-- `WC_AMOUNT_SCALE = 100000000`. -/
def WC_AMOUNT_SCALE : Nat := 100000000

/-! ## Amount codec: `wc_from_bstring` (webcash.c)

The parser is split into one Lean function per loop of the C source; the
driver `wc_from_bstring` threads the two out-cells (`*amt`, `*noncanonical`)
explicitly and leaves them untouched on every error exit, exactly as the
source returns before its final write-back block. -/

/-- The integral-part loop of `wc_from_bstring`:
`for (; pos != end && isdigit(*pos); ++pos)` with overflow-checked
`u64 = u64*10 + (*pos - '0')`.  Returns the accumulator and the unconsumed
remainder of the input. -/
def wc_parse_int_loop (u64 : Nat) (s : List Nat) : Except WcErr (Nat × List Nat) :=
  match s with
  | [] => .ok (u64, [])
  | c :: cs =>
    if wcIsDigit c then
      if u64 > UINT64_MAX / 10 then .error .WC_ERROR_OVERFLOW
      else if u64 * 10 > UINT64_MAX - (c - 48) then .error .WC_ERROR_OVERFLOW
      else wc_parse_int_loop (u64 * 10 + (c - 48)) cs
    else .ok (u64, c :: cs)

/-- The fractional-digit loop of `wc_from_bstring`:
`for (; j < 8 && pos != end; ++j, ++pos)`.  Each byte must be a digit;
a nonzero digit sets `is_fractional`; the accumulator update is
overflow-checked as in the integral loop.  Returns
`(j, u64, is_fractional, remainder)`. -/
def wc_parse_frac_loop (j u64 : Nat) (isFrac : Bool) (s : List Nat) :
    Except WcErr (Nat × Nat × Bool × List Nat) :=
  match s with
  | [] => .ok (j, u64, isFrac, [])
  | c :: cs =>
    if j < 8 then
      if !wcIsDigit c then .error .WC_ERROR_INVALID_ARGUMENT
      else
        let isFrac := isFrac || decide (c ≠ 48)
        if u64 > UINT64_MAX / 10 then .error .WC_ERROR_OVERFLOW
        else if u64 * 10 > UINT64_MAX - (c - 48) then .error .WC_ERROR_OVERFLOW
        else wc_parse_frac_loop (j + 1) (u64 * 10 + (c - 48)) isFrac cs
    else .ok (j, u64, isFrac, c :: cs)

/-- The trailing-zeros loop of `wc_from_bstring`: every remaining byte must
be `'0'`, and the presence of any such byte marks the input noncanonical.
Returns whether the loop body ran at least once. -/
def wc_parse_zeros_loop (s : List Nat) : Except WcErr Bool :=
  match s with
  | [] => .ok false
  | c :: cs =>
    if c ≠ 48 then .error .WC_ERROR_INVALID_ARGUMENT
    else (wc_parse_zeros_loop cs).map (fun _ => true)

/-- The body of the scaling loop, iterated a fixed number of times. -/
def wc_scale_go : Nat → Nat → Except WcErr Nat
  | 0, u64 => .ok u64
  | k + 1, u64 =>
    if u64 > UINT64_MAX / 10 then .error .WC_ERROR_OVERFLOW
    else wc_scale_go k (u64 * 10)

/-- The scaling loop of `wc_from_bstring`: `while (j++ < 8) u64 *= 10;`
with the same overflow guard before each multiplication; it runs `8 - j`
times. -/
def wc_scale_loop (j u64 : Nat) : Except WcErr Nat := wc_scale_go (8 - j) u64

/-- The body of `wc_from_bstring` after the sign has been stripped: the
leading-zero check, the integral loop, the optional fractional part
(`'.'`, fractional loop, trailing-zeros loop, only-zeros check) and the
scaling loop.  `s1` is the input with any leading `'-'` removed; since `s1`
is a nonempty suffix of the original string, `s1.getLast?` is the
`end[-1]` byte of the source.  Returns the unsigned accumulator and the
noncanonical flag gathered so far. -/
def wc_amount_scan (s1 : List Nat) : Except WcErr (Nat × Bool) :=
  match s1.head? with
  | none => .error .WC_ERROR_INVALID_ARGUMENT
  | some c0 =>
    if !wcIsDigit c0 then .error .WC_ERROR_INVALID_ARGUMENT
    else
      -- `pos[0] == '0' && (pos + 1) != end && pos[1] != '.'`
      let nc1 : Bool := c0 = 48 && s1.length ≠ 1 && s1[1]? ≠ some 46
      match wc_parse_int_loop 0 s1 with
      | .error e => .error e
      | .ok (u64a, rest) =>
        match rest with
        | [] => (wc_scale_loop 0 u64a).map (fun u => (u, nc1))
        | c :: rest2 =>
          if c ≠ 46 then .error .WC_ERROR_INVALID_ARGUMENT
          else
            -- `if (pos == end) is_noncanonical = 1;`
            let nc2 : Bool := nc1 || rest2.isEmpty
            -- `if (end[-1] == '0') is_noncanonical = 1;`
            let nc3 : Bool := nc2 || s1.getLast? = some 48
            match wc_parse_frac_loop 0 u64a false rest2 with
            | .error e => .error e
            | .ok (j, u64b, isFrac, rest3) =>
              match wc_parse_zeros_loop rest3 with
              | .error e => .error e
              | .ok ranZeros =>
                let nc4 : Bool := nc3 || ranZeros
                let nc5 : Bool := nc4 || !isFrac
                (wc_scale_loop j u64b).map (fun u => (u, nc5))

/-- `wc_from_bstring(amt, noncanonical, str)`.  `amt0` and `nc0` are the
previous contents of the two out-cells; on every error exit the cells are
returned unchanged (the source returns before its write-back block), and on
success they receive the signed amount and the 0/1 noncanonical flag. -/
def wc_from_bstring (amt0 nc0 : Int) (s : List Nat) : WcErr × Int × Int :=
  -- `str->slen == 0` check (NULL / negative-length strings are
  -- unrepresentable in the model)
  if s.isEmpty then (.WC_ERROR_INVALID_ARGUMENT, amt0, nc0)
  else
    let isNeg : Bool := s.head? = some 45
    let s1 := if isNeg then s.tail else s
    -- a single minus sign is not a valid encoding
    if s1.isEmpty then (.WC_ERROR_INVALID_ARGUMENT, amt0, nc0)
    else
      match wc_amount_scan s1 with
      | .error e => (e, amt0, nc0)
      | .ok (u64, nc) =>
        if isNeg && u64 > INT64_MAX + 1 then (.WC_ERROR_OVERFLOW, amt0, nc0)
        else if !isNeg && u64 > INT64_MAX then (.WC_ERROR_OVERFLOW, amt0, nc0)
        else
          -- negative zero is noncanonical
          let ncF : Bool := nc || (u64 = 0 && isNeg)
          (.WC_SUCCESS, if isNeg then -(u64 : Int) else (u64 : Int),
            if ncF then 1 else 0)

/-! ## Amount codec: `wc_to_bstring` (webcash.c) -/

/-- The ASCII decimal digits of `n`, most significant first (the output of
`bformat("%" PRId64, n)` for a nonnegative value). -/
def natDecDigits (n : Nat) : List Nat :=
  if h : n < 10 then [48 + n]
  else natDecDigits (n / 10) ++ [48 + n % 10]
decreasing_by exact Nat.div_lt_self (by omega) (by omega)

/-- `%08` zero-padding of `bformat("%s%" PRId64 ".%08" PRId64 …)`: the
decimal digits of `n` left-padded with `'0'` to width 8 (`n < 10^8` in all
uses). -/
def zeroPad8 (n : Nat) : List Nat :=
  List.replicate (8 - (natDecDigits n).length) 48 ++ natDecDigits n

/-- The trailing-`'0'`-stripping loop of `wc_to_bstring`
(`while (str->slen > 0 && str->data[str->slen-1] == '0') btrunc(…)`).
The source strips the whole string, but the strip always stops inside the
fractional field because the fractional field is only emitted when
`rem != 0`, i.e. when it contains a nonzero digit. -/
def stripTrailingZeros (s : List Nat) : List Nat :=
  (s.reverse.dropWhile (fun c => c = 48)).reverse

/-- `wc_to_bstring` restricted to a nonnegative magnitude: quotient and
remainder by `WC_AMOUNT_SCALE`, with the fractional field emitted only when
the remainder is nonzero. -/
def wc_to_bstring_nonneg (n : Nat) : List Nat :=
  let quot := n / WC_AMOUNT_SCALE
  let rem := n % WC_AMOUNT_SCALE
  if rem = 0 then natDecDigits quot
  else natDecDigits quot ++ [46] ++ stripTrailingZeros (zeroPad8 rem)

/-- The byte string `"-92233720368.54775808"`, the hard-coded formatting of
`INT64_MIN` in `wc_to_bstring`. -/
def wcInt64MinStr : List Nat :=
  [45, 57, 50, 50, 51, 51, 55, 50, 48, 51, 54, 56, 46, 53, 52, 55, 55, 53, 56, 48, 56]

/-- `wc_to_bstring(amount)`: emit `-` iff negative (with `INT64_MIN`
special-cased as a literal), then the scaled decimal expansion with
trailing fractional zeros stripped. -/
def wc_to_bstring (amount : Int) : List Nat :=
  if amount < 0 then
    if amount = -9223372036854775808 then wcInt64MinStr
    else 45 :: wc_to_bstring_nonneg (-amount).toNat
  else wc_to_bstring_nonneg amount.toNat

/-! ## Decimal-digit accumulation lemmas -/

/-- The value accumulated by the parsing loops over a digit string, starting
from accumulator `u`: `foldl (fun a c => a * 10 + (c - 48)) u`. -/
def accDigits (u : Nat) (ds : List Nat) : Nat :=
  ds.foldl (fun a c => a * 10 + (c - 48)) u

@[simp] theorem accDigits_nil (u : Nat) : accDigits u [] = u := rfl

theorem accDigits_cons (u c : Nat) (ds : List Nat) :
    accDigits u (c :: ds) = accDigits (u * 10 + (c - 48)) ds := rfl

theorem accDigits_append (u : Nat) (l1 l2 : List Nat) :
    accDigits u (l1 ++ l2) = accDigits (accDigits u l1) l2 := by
  simp [accDigits, List.foldl_append]

theorem accDigits_le (u : Nat) (ds : List Nat) : u ≤ accDigits u ds := by
  induction ds generalizing u with
  | nil => simp
  | cons c cs ih =>
    calc u ≤ u * 10 + (c - 48) := by omega
    _ ≤ accDigits (u * 10 + (c - 48)) cs := ih _
    _ = accDigits u (c :: cs) := rfl

theorem accDigits_split (u : Nat) (ds : List Nat) :
    accDigits u ds = u * 10 ^ ds.length + accDigits 0 ds := by
  induction ds generalizing u with
  | nil => simp
  | cons c cs ih =>
    rw [accDigits_cons, ih, accDigits_cons (u := 0), ih (u := 0 * 10 + (c - 48))]
    simp [List.length_cons, pow_succ]
    ring

theorem accDigits_replicate48 (u k : Nat) :
    accDigits u (List.replicate k 48) = u * 10 ^ k := by
  induction k generalizing u with
  | zero => simp
  | succ k ih =>
    rw [List.replicate_succ, accDigits_cons, ih]
    simp [pow_succ]
    ring

theorem accDigits_lt (ds : List Nat) (hds : ∀ c ∈ ds, wcIsDigit c) :
    accDigits 0 ds < 10 ^ ds.length := by
  induction ds with
  | nil => simp
  | cons c cs ih =>
    have hc : wcIsDigit c := hds c (List.mem_cons_self _ _)
    have hc' : c - 48 ≤ 9 := by
      simp only [wcIsDigit, Bool.and_eq_true, decide_eq_true_eq] at hc; omega
    have := ih (fun x hx => hds x (List.mem_cons_of_mem _ hx))
    rw [accDigits_cons, accDigits_split]
    have : (0 * 10 + (c - 48)) * 10 ^ cs.length + accDigits 0 cs
        < (c - 48 + 1) * 10 ^ cs.length := by
      simp only [Nat.zero_mul, Nat.zero_add, Nat.add_mul, Nat.one_mul]
      omega
    calc (0 * 10 + (c - 48)) * 10 ^ cs.length + accDigits 0 cs
        < (c - 48 + 1) * 10 ^ cs.length := this
    _ ≤ 10 * 10 ^ cs.length := Nat.mul_le_mul_right _ (by omega)
    _ = 10 ^ (c :: cs).length := by rw [List.length_cons, pow_succ, Nat.mul_comm]

/-! ## `natDecDigits` lemmas -/

theorem natDecDigits_lt10 (n : Nat) (h : n < 10) : natDecDigits n = [48 + n] := by
  rw [natDecDigits]; simp [h]

theorem natDecDigits_ge10 (n : Nat) (h : ¬ n < 10) :
    natDecDigits n = natDecDigits (n / 10) ++ [48 + n % 10] := by
  conv_lhs => rw [natDecDigits]
  simp [h]

theorem natDecDigits_ne_nil (n : Nat) : natDecDigits n ≠ [] := by
  by_cases h : n < 10
  · rw [natDecDigits_lt10 n h]; simp
  · rw [natDecDigits_ge10 n h]; simp

theorem natDecDigits_digits (n : Nat) : ∀ c ∈ natDecDigits n, wcIsDigit c := by
  induction n using Nat.strong_induction_on with
  | _ n ih =>
    by_cases h : n < 10
    · rw [natDecDigits_lt10 n h]
      intro c hc
      simp at hc
      simp [wcIsDigit, hc]; omega
    · rw [natDecDigits_ge10 n h]
      intro c hc
      rcases List.mem_append.1 hc with h1 | h2
      · exact ih (n / 10) (Nat.div_lt_self (by omega) (by omega)) c h1
      · simp at h2
        have : n % 10 < 10 := Nat.mod_lt _ (by omega)
        simp [wcIsDigit, h2]; omega

theorem accDigits_natDecDigits (n : Nat) : accDigits 0 (natDecDigits n) = n := by
  induction n using Nat.strong_induction_on with
  | _ n ih =>
    by_cases h : n < 10
    · rw [natDecDigits_lt10 n h, accDigits_cons]
      simp
    · rw [natDecDigits_ge10 n h, accDigits_append,
        ih (n / 10) (Nat.div_lt_self (by omega) (by omega)), accDigits_cons]
      simp
      omega

theorem natDecDigits_head_ne_48 (n : Nat) (hn : n ≠ 0) :
    (natDecDigits n).head? ≠ some 48 := by
  induction n using Nat.strong_induction_on with
  | _ n ih =>
    by_cases h : n < 10
    · rw [natDecDigits_lt10 n h]
      simp; omega
    · rw [natDecDigits_ge10 n h]
      have hne := natDecDigits_ne_nil (n / 10)
      rw [List.head?_append_of_ne_nil _ hne]
      exact ih (n / 10) (Nat.div_lt_self (by omega) (by omega)) (by omega)

theorem natDecDigits_length_le (n L : Nat) (hL : 1 ≤ L) (h : n < 10 ^ L) :
    (natDecDigits n).length ≤ L := by
  induction L generalizing n with
  | zero => omega
  | succ L ihL =>
    by_cases h10 : n < 10
    · rw [natDecDigits_lt10 n h10]; simp
    · rw [natDecDigits_ge10 n h10]
      have hL1 : 1 ≤ L := by
        rcases Nat.eq_zero_or_pos L with h0 | h1
        · subst h0; rw [pow_one] at h; omega
        · exact h1
      have hdiv : n / 10 < 10 ^ L := by
        rw [Nat.div_lt_iff_lt_mul (by omega)]
        calc n < 10 ^ (L + 1) := h
        _ = 10 ^ L * 10 := pow_succ 10 L
      have hlen := ihL (n / 10) hL1 hdiv
      rw [List.length_append]
      simp only [List.length_singleton]
      omega

theorem natDecDigits_eq_singleton_iff (n : Nat) :
    natDecDigits n = [48 + n] ↔ n < 10 := by
  constructor
  · intro h
    by_contra h10
    rw [natDecDigits_ge10 n h10] at h
    have hlen := congrArg List.length h
    rw [List.length_append] at hlen
    simp only [List.length_singleton] at hlen
    have hpos : 0 < (natDecDigits (n / 10)).length :=
      List.length_pos.2 (natDecDigits_ne_nil (n / 10))
    omega
  · exact natDecDigits_lt10 n

/-! ## Loop specifications for the amount parser -/

theorem wcIsDigit_bounds {c : Nat} (h : wcIsDigit c) : 48 ≤ c ∧ c ≤ 57 := by
  simpa [wcIsDigit] using h

theorem mul10_gt_max {u : Nat} (h : u > UINT64_MAX / 10) : u * 10 > UINT64_MAX := by
  simp only [UINT64_MAX] at *
  omega

/-- The integral loop consumes a leading all-digit segment and stops at the
first non-digit; it succeeds exactly when the accumulated value stays within
`UINT64_MAX`. -/
theorem wc_parse_int_loop_spec (ds rest : List Nat) (u : Nat)
    (hds : ∀ c ∈ ds, wcIsDigit c)
    (hrest : ∀ c ∈ rest.head?, ¬ wcIsDigit c)
    (hu : u ≤ UINT64_MAX) :
    wc_parse_int_loop u (ds ++ rest) =
      if accDigits u ds ≤ UINT64_MAX then .ok (accDigits u ds, rest)
      else .error .WC_ERROR_OVERFLOW := by
  induction ds generalizing u with
  | nil =>
    rw [List.nil_append, accDigits_nil, if_pos hu]
    cases rest with
    | nil => rfl
    | cons c cs =>
      have hc : ¬ wcIsDigit c := hrest c rfl
      unfold wc_parse_int_loop
      simp [hc]
  | cons d ds ih =>
    have hd : wcIsDigit d := hds d (List.mem_cons_self _ _)
    have hd' := wcIsDigit_bounds hd
    rw [List.cons_append, accDigits_cons]
    unfold wc_parse_int_loop
    simp only [if_pos hd]
    by_cases h1 : u > UINT64_MAX / 10
    · have hgt : UINT64_MAX < accDigits (u * 10 + (d - 48)) ds := by
        have h10 := mul10_gt_max h1
        have := accDigits_le (u * 10 + (d - 48)) ds
        omega
      rw [if_pos h1, if_neg (by omega)]
    · rw [if_neg h1]
      by_cases h2 : u * 10 > UINT64_MAX - (d - 48)
      · have hgt : UINT64_MAX < accDigits (u * 10 + (d - 48)) ds := by
          have := accDigits_le (u * 10 + (d - 48)) ds
          simp only [UINT64_MAX] at *
          omega
        rw [if_pos h2, if_neg (by omega)]
      · have hu' : u * 10 + (d - 48) ≤ UINT64_MAX := by
          simp only [UINT64_MAX] at *
          omega
        rw [if_neg h2]
        exact ih (u * 10 + (d - 48)) (fun c hc => hds c (List.mem_cons_of_mem _ hc)) hu'

/-- The fractional loop consumes up to `8 - j` digits of an all-digit input,
accumulating them and tracking whether a nonzero digit was seen. -/
theorem wc_parse_frac_loop_spec (ds : List Nat) (j u : Nat) (f : Bool)
    (hds : ∀ c ∈ ds, wcIsDigit c) (hj : j ≤ 8) (hu : u ≤ UINT64_MAX) :
    wc_parse_frac_loop j u f ds =
      if accDigits u (ds.take (8 - j)) ≤ UINT64_MAX then
        .ok (j + min (8 - j) ds.length, accDigits u (ds.take (8 - j)),
             f || (ds.take (8 - j)).any (fun c => c ≠ 48), ds.drop (8 - j))
      else .error .WC_ERROR_OVERFLOW := by
  induction ds generalizing j u f with
  | nil =>
    simp only [List.take_nil, List.drop_nil, accDigits_nil, List.length_nil,
      Nat.min_zero, Nat.add_zero, List.any_nil, Bool.or_false, if_pos hu]
    rfl
  | cons d ds ih =>
    by_cases hj8 : j < 8
    · have hd : wcIsDigit d := hds d (List.mem_cons_self _ _)
      have hd' := wcIsDigit_bounds hd
      have h8j : 8 - j = (8 - (j + 1)) + 1 := by omega
      rw [h8j, List.take_succ_cons, List.drop_succ_cons, accDigits_cons]
      unfold wc_parse_frac_loop
      simp only [if_pos hj8, hd, Bool.not_true, Bool.false_eq_true, if_false]
      by_cases h1 : u > UINT64_MAX / 10
      · have hgt : UINT64_MAX < accDigits (u * 10 + (d - 48)) (ds.take (8 - (j + 1))) := by
          have h10 := mul10_gt_max h1
          have := accDigits_le (u * 10 + (d - 48)) (ds.take (8 - (j + 1)))
          omega
        rw [if_pos h1, if_neg (by omega)]
      · rw [if_neg h1]
        by_cases h2 : u * 10 > UINT64_MAX - (d - 48)
        · have hgt : UINT64_MAX < accDigits (u * 10 + (d - 48)) (ds.take (8 - (j + 1))) := by
            have := accDigits_le (u * 10 + (d - 48)) (ds.take (8 - (j + 1)))
            simp only [UINT64_MAX] at *
            omega
          rw [if_pos h2, if_neg (by omega)]
        · have hu' : u * 10 + (d - 48) ≤ UINT64_MAX := by
            simp only [UINT64_MAX] at *
            omega
          rw [if_neg h2,
            ih (j + 1) (u * 10 + (d - 48)) (f || decide (d ≠ 48))
              (fun c hc => hds c (List.mem_cons_of_mem _ hc)) (by omega) hu']
          have hmin : j + min (8 - (j + 1) + 1) (d :: ds).length
              = (j + 1) + min (8 - (j + 1)) ds.length := by
            simp only [List.length_cons]
            omega
          have hany : ((f || decide (d ≠ 48)) || (ds.take (8 - (j + 1))).any (fun c => decide (c ≠ 48)))
              = (f || ((d :: ds.take (8 - (j + 1))).any (fun c => decide (c ≠ 48)))) := by
            rw [List.any_cons, Bool.or_assoc]
          rw [hmin, hany]
    · have hj' : j = 8 := by omega
      subst hj'
      simp only [Nat.sub_self, List.take_zero, List.drop_zero, accDigits_nil,
        Nat.zero_min, Nat.add_zero, List.any_nil, Bool.or_false, if_pos hu]
      unfold wc_parse_frac_loop
      simp

/-- The trailing-zeros loop accepts exactly the all-`'0'` remainders and
reports whether it consumed anything. -/
theorem wc_parse_zeros_loop_spec (s : List Nat) :
    wc_parse_zeros_loop s =
      if s.all (fun c => c = 48) then .ok (!s.isEmpty)
      else .error .WC_ERROR_INVALID_ARGUMENT := by
  induction s with
  | nil => rfl
  | cons c cs ih =>
    unfold wc_parse_zeros_loop
    by_cases hc : c = 48
    · subst hc
      rw [ih]
      by_cases hall : cs.all (fun c => c = 48)
      · simp [hall, Except.map]
      · simp [hall, Except.map]
    · simp [hc]

/-- The scaling loop multiplies by `10^(8-j)`, succeeding exactly when the
result stays within `UINT64_MAX`. -/
theorem wc_scale_go_spec (k u : Nat) (hu : u ≤ UINT64_MAX) :
    wc_scale_go k u =
      if u * 10 ^ k ≤ UINT64_MAX then .ok (u * 10 ^ k)
      else .error .WC_ERROR_OVERFLOW := by
  induction k generalizing u with
  | zero =>
    unfold wc_scale_go
    rw [pow_zero, Nat.mul_one, if_pos hu]
  | succ k ih =>
    unfold wc_scale_go
    by_cases h1 : u > UINT64_MAX / 10
    · have h10 := mul10_gt_max h1
      have hgt : ¬ u * 10 ^ (k + 1) ≤ UINT64_MAX := by
        rw [pow_succ]
        have h1le : 1 ≤ 10 ^ k := Nat.one_le_pow _ _ (by omega)
        have hle : u * 10 ≤ u * 10 ^ k * 10 :=
          Nat.mul_le_mul_right 10 (Nat.le_mul_of_pos_right u (by omega))
        have hassoc : u * 10 ^ k * 10 = u * (10 ^ k * 10) := by ring
        omega
      rw [if_pos h1, if_neg hgt]
    · have hu10 : u * 10 ≤ UINT64_MAX := by
        simp only [UINT64_MAX] at *
        omega
      rw [if_neg h1, ih (u * 10) hu10]
      have hmul : u * 10 * 10 ^ k = u * 10 ^ (k + 1) := by
        rw [pow_succ]
        ring
      rw [hmul]

theorem wc_scale_loop_spec (j u : Nat) (_hj : j ≤ 8) (hu : u ≤ UINT64_MAX) :
    wc_scale_loop j u =
      if u * 10 ^ (8 - j) ≤ UINT64_MAX then .ok (u * 10 ^ (8 - j))
      else .error .WC_ERROR_OVERFLOW :=
  wc_scale_go_spec (8 - j) u hu

/-! ## Characterization of `wc_amount_scan` on well-shaped inputs -/

theorem take8_length_min (fs : List Nat) : (fs.take 8).length = min 8 fs.length :=
  List.length_take 8 fs

theorem acc_scale_split (A F m : Nat) (hm : m ≤ 8) :
    (A * 10 ^ m + F) * 10 ^ (8 - m) = A * 10 ^ 8 + F * 10 ^ (8 - m) := by
  have h : m + (8 - m) = 8 := by omega
  rw [Nat.add_mul, Nat.mul_assoc, ← pow_add, h]

/-- Regrouping of the noncanonical-flag disjuncts accumulated by
`wc_amount_scan` into the statement form. -/
theorem wc_bool_or_regroup (a e g r f : Bool) :
    ((((a || e) || g) || r) || !f) = (a || (true && (e || g || r || !f))) := by
  cases a <;> cases e <;> cases g <;> cases r <;> cases f <;> rfl

set_option maxRecDepth 4096 in
/-- `wc_amount_scan` on an input of the shape
`d :: ds' ++ ('.' :: fs)?` — a nonempty all-digit integral part followed by
an optional all-digit fractional part whose digits beyond the eighth are all
`'0'` — succeeds with the scaled value exactly when that value fits in
`uint64_t`, and fails with overflow otherwise.  The noncanonical flag is the
disjunction of the leading-zero condition and the fractional conditions of
the source. -/
theorem wc_amount_scan_spec (d : Nat) (ds' fs : List Nat) (hasDot : Bool)
    (hd : wcIsDigit d) (hds : ∀ c ∈ ds', wcIsDigit c)
    (hfs : ∀ c ∈ fs, wcIsDigit c) (hfs8 : ∀ c ∈ fs.drop 8, c = 48)
    (hnd : hasDot = false → fs = []) :
    wc_amount_scan ((d :: ds') ++ (if hasDot then 46 :: fs else [])) =
      (if accDigits 0 (d :: ds') * 10 ^ 8
          + accDigits 0 (fs.take 8) * 10 ^ (8 - min 8 fs.length) ≤ UINT64_MAX
       then .ok (accDigits 0 (d :: ds') * 10 ^ 8
          + accDigits 0 (fs.take 8) * 10 ^ (8 - min 8 fs.length),
          ((d = 48 && ((d :: ds') ++ (if hasDot then 46 :: fs else [])).length ≠ 1
              && ((d :: ds') ++ (if hasDot then 46 :: fs else []))[1]? ≠ some 46) ||
           (hasDot && (fs.isEmpty
              || ((d :: ds') ++ (if hasDot then 46 :: fs else [])).getLast? = some 48
              || !(fs.drop 8).isEmpty
              || !(fs.take 8).any (fun c => decide (c ≠ 48))))))
       else .error .WC_ERROR_OVERFLOW) := by
  have hA := accDigits_le 0 (d :: ds')
  have hm8 : min 8 fs.length ≤ 8 := Nat.min_le_left _ _
  have hpow8 : (1 : Nat) ≤ 10 ^ 8 := Nat.one_le_pow _ _ (by omega)
  have hpowm : (1 : Nat) ≤ 10 ^ (8 - min 8 fs.length) := Nat.one_le_pow _ _ (by omega)
  unfold wc_amount_scan
  simp only [List.cons_append, List.head?_cons]
  rw [if_neg (by simp [hd])]
  have hint := wc_parse_int_loop_spec (d :: ds') (if hasDot then 46 :: fs else []) 0
    (by intro c hc; exact (by cases List.mem_cons.1 hc with
          | inl h => subst h; exact hd
          | inr h => exact hds c h))
    (by cases hasDot with
        | false => simp
        | true => intro c hc; simp at hc; subst hc; simp [wcIsDigit]
        )
    (by simp [UINT64_MAX])
  rw [List.cons_append] at hint
  rw [hint]
  by_cases hi : accDigits 0 (d :: ds') ≤ UINT64_MAX
  · rw [if_pos hi]
    cases hasDot with
    | false =>
      rw [hnd rfl] at *
      simp only [Bool.false_eq_true, if_false, List.append_nil]
      rw [wc_scale_loop_spec 0 (accDigits 0 (d :: ds')) (by omega) hi]
      simp only [List.take_nil, List.drop_nil, accDigits_nil, List.length_nil]
      simp only [Nat.min_zero]
      simp only [Nat.sub_zero]
      simp only [Nat.zero_mul]
      rw [Nat.add_zero]
      by_cases hsc : accDigits 0 (d :: ds') * 10 ^ 8 ≤ UINT64_MAX
      · rw [if_pos hsc, if_pos hsc]
        simp only [Except.map, Bool.false_and, Bool.or_false]
      · rw [if_neg hsc, if_neg hsc]
        rfl
    | true =>
      simp only [↓reduceIte]
      rw [wc_parse_frac_loop_spec fs 0 (accDigits 0 (d :: ds')) false hfs (by omega) hi]
      rw [Nat.sub_zero, Nat.zero_add]
      rw [if_neg (by simp : ¬ ((46 : Nat) ≠ 46))]
      by_cases hf : accDigits (accDigits 0 (d :: ds')) (fs.take 8) ≤ UINT64_MAX
      · rw [if_pos hf]
        dsimp only
        rw [wc_parse_zeros_loop_spec (fs.drop 8),
          if_pos (by simp only [List.all_eq_true, decide_eq_true_eq]; exact hfs8)]
        dsimp only
        rw [wc_scale_loop_spec (min 8 fs.length) _ hm8 hf]
        rw [accDigits_split (accDigits 0 (d :: ds')) (fs.take 8), take8_length_min,
          acc_scale_split _ _ _ hm8]
        by_cases hsc : accDigits 0 (d :: ds') * 10 ^ 8
            + accDigits 0 (fs.take 8) * 10 ^ (8 - min 8 fs.length) ≤ UINT64_MAX
        · rw [if_pos hsc, if_pos hsc]
          simp only [Except.map, Bool.false_or]
          rw [wc_bool_or_regroup]
        · rw [if_neg hsc, if_neg hsc]
          rfl
      · rw [if_neg hf]
        have hEq : accDigits (accDigits 0 (d :: ds')) (fs.take 8) * 10 ^ (8 - min 8 fs.length)
            = accDigits 0 (d :: ds') * 10 ^ 8
              + accDigits 0 (fs.take 8) * 10 ^ (8 - min 8 fs.length) := by
          rw [accDigits_split (accDigits 0 (d :: ds')) (fs.take 8), take8_length_min,
            acc_scale_split _ _ _ hm8]
        have hle : accDigits (accDigits 0 (d :: ds')) (fs.take 8)
            ≤ accDigits (accDigits 0 (d :: ds')) (fs.take 8) * 10 ^ (8 - min 8 fs.length) :=
          Nat.le_mul_of_pos_right _ (by omega)
        rw [if_neg (by omega)]
  · rw [if_neg hi]
    have hN : ¬ (accDigits 0 (d :: ds') * 10 ^ 8
        + accDigits 0 (fs.take 8) * 10 ^ (8 - min 8 fs.length) ≤ UINT64_MAX) := by
      have hx : accDigits 0 (d :: ds') ≤ accDigits 0 (d :: ds') * 10 ^ 8 :=
        Nat.le_mul_of_pos_right _ (by omega)
      omega
    rw [if_neg hN]

/-! ## Properties of the formatter `wc_to_bstring` -/

theorem dropWhile_head_not (p : Nat → Bool) (l : List Nat) :
    ∀ c ∈ (l.dropWhile p).head?, ¬ p c := by
  induction l with
  | nil => simp
  | cons a l ih =>
    by_cases h : p a
    · simpa [List.dropWhile_cons, h] using ih
    · simp [List.dropWhile_cons, h]

theorem stripTrailingZeros_getLast (s : List Nat) :
    ∀ c ∈ (stripTrailingZeros s).getLast?, c ≠ 48 := by
  intro c hc
  unfold stripTrailingZeros at hc
  rw [List.getLast?_reverse] at hc
  have := dropWhile_head_not (fun c => c = 48) s.reverse c hc
  simpa using this

theorem stripTrailingZeros_decomp (s : List Nat) :
    ∃ k, s = stripTrailingZeros s ++ List.replicate k 48 := by
  obtain ⟨n, htk⟩ : ∃ n, s.reverse.takeWhile (fun c => c = 48) = List.replicate n 48 := by
    refine ⟨(s.reverse.takeWhile (fun c => c = 48)).length, ?_⟩
    apply List.eq_replicate_length.2
    intro b hb
    simpa using List.mem_takeWhile_imp hb
  refine ⟨n, ?_⟩
  have hsplit : s.reverse = List.replicate n 48 ++ s.reverse.dropWhile (fun c => c = 48) := by
    rw [← htk, List.takeWhile_append_dropWhile]
  calc s = s.reverse.reverse := (s.reverse_reverse).symm
  _ = (List.replicate n 48 ++ s.reverse.dropWhile (fun c => c = 48)).reverse := by
      rw [← hsplit]
  _ = (s.reverse.dropWhile (fun c => c = 48)).reverse ++ (List.replicate n 48).reverse := by
      rw [List.reverse_append]
  _ = stripTrailingZeros s ++ List.replicate n 48 := by
      rw [List.reverse_replicate]
      rfl

/-- The stripped, zero-padded fractional field of `wc_to_bstring` for a
nonzero remainder `0 < rem < 10^8`: nonempty, at most eight digits, no
trailing zero, containing a nonzero digit, and denoting `rem` after scaling
by the elided digits. -/
theorem fracField_spec (rem : Nat) (h0 : 0 < rem) (h8 : rem < 10 ^ 8) :
    (∀ c ∈ stripTrailingZeros (zeroPad8 rem), wcIsDigit c) ∧
    stripTrailingZeros (zeroPad8 rem) ≠ [] ∧
    (∀ c ∈ (stripTrailingZeros (zeroPad8 rem)).getLast?, c ≠ 48) ∧
    (stripTrailingZeros (zeroPad8 rem)).length ≤ 8 ∧
    accDigits 0 (stripTrailingZeros (zeroPad8 rem))
      * 10 ^ (8 - (stripTrailingZeros (zeroPad8 rem)).length) = rem := by
  obtain ⟨k, hk⟩ := stripTrailingZeros_decomp (zeroPad8 rem)
  have hlen8 : (zeroPad8 rem).length = 8 := by
    have hd8 : (natDecDigits rem).length ≤ 8 := natDecDigits_length_le rem 8 (by omega) h8
    simp only [zeroPad8, List.length_append, List.length_replicate]
    omega
  have hdigits : ∀ c ∈ zeroPad8 rem, wcIsDigit c := by
    intro c hc
    rcases List.mem_append.1 hc with h | h
    · have := List.eq_of_mem_replicate h
      subst this
      decide
    · exact natDecDigits_digits rem c h
  have hval : accDigits 0 (zeroPad8 rem) = rem := by
    unfold zeroPad8
    rw [accDigits_append, accDigits_replicate48, Nat.zero_mul, accDigits_natDecDigits]
  have hmem : ∀ c ∈ stripTrailingZeros (zeroPad8 rem), c ∈ zeroPad8 rem := by
    intro c hc
    rw [hk]
    exact List.mem_append_left _ hc
  have hlen : (stripTrailingZeros (zeroPad8 rem)).length + k = 8 := by
    have hlk := congrArg List.length hk
    simp only [List.length_append, List.length_replicate] at hlk
    omega
  have hval2 : accDigits 0 (stripTrailingZeros (zeroPad8 rem)) * 10 ^ k = rem := by
    have h2 := hval
    rw [hk, accDigits_append, accDigits_replicate48] at h2
    exact h2
  have h28 : (8 : Nat) - (stripTrailingZeros (zeroPad8 rem)).length = k := by omega
  refine ⟨fun c hc => hdigits c (hmem c hc), ?_, stripTrailingZeros_getLast _,
    by omega, by rw [h28]; exact hval2⟩
  intro hnil
  rw [hnil] at hval2
  simp only [accDigits_nil, Nat.zero_mul] at hval2
  omega

theorem natDecDigits_head_exists (n : Nat) :
    ∃ d ds', natDecDigits n = d :: ds' := by
  cases h : natDecDigits n with
  | nil => exact absurd h (natDecDigits_ne_nil n)
  | cons d ds' => exact ⟨d, ds', rfl⟩

/-- `wc_amount_scan` recovers exactly `n` (canonically) from
`wc_to_bstring_nonneg n`, for every `n` within `uint64_t` range. -/
theorem wc_amount_scan_format (n : Nat) (hn : n ≤ UINT64_MAX) :
    wc_amount_scan (wc_to_bstring_nonneg n) = .ok (n, false) := by
  obtain ⟨d, ds', hdds⟩ := natDecDigits_head_exists (n / WC_AMOUNT_SCALE)
  have hquot : accDigits 0 (d :: ds') = n / WC_AMOUNT_SCALE := by
    rw [← hdds, accDigits_natDecDigits]
  have hddig : wcIsDigit d := by
    have := natDecDigits_digits (n / WC_AMOUNT_SCALE) d
    rw [hdds] at this
    exact this (List.mem_cons_self _ _)
  have hds'dig : ∀ c ∈ ds', wcIsDigit c := by
    intro c hc
    have := natDecDigits_digits (n / WC_AMOUNT_SCALE) c
    rw [hdds] at this
    exact this (List.mem_cons_of_mem _ hc)
  have hzero : n / WC_AMOUNT_SCALE = 0 → d = 48 ∧ ds' = [] := by
    intro hq
    have h1 : natDecDigits (n / WC_AMOUNT_SCALE) = [48 + 0] := by
      rw [hq]; exact natDecDigits_lt10 0 (by omega)
    rw [hdds] at h1
    cases h1
    exact ⟨rfl, rfl⟩
  have hpos : n / WC_AMOUNT_SCALE ≠ 0 → decide (d = 48) = false := by
    intro hq
    have := natDecDigits_head_ne_48 (n / WC_AMOUNT_SCALE) hq
    rw [hdds] at this
    simp only [List.head?_cons, ne_eq, Option.some.injEq] at this
    simpa using this
  by_cases hrem : n % WC_AMOUNT_SCALE = 0
  · -- no fractional field
    have hfmt : wc_to_bstring_nonneg n = (d :: ds') ++ (if false then 46 :: [] else []) := by
      simp only [wc_to_bstring_nonneg, if_pos hrem, hdds]
      simp
    rw [hfmt, wc_amount_scan_spec d ds' [] false hddig hds'dig (by simp) (by simp)
      (fun _ => rfl)]
    have hN : accDigits 0 (d :: ds') * 10 ^ 8
        + accDigits 0 (([] : List Nat).take 8) * 10 ^ (8 - min 8 ([] : List Nat).length) = n := by
      simp only [List.take_nil, accDigits_nil, List.length_nil, Nat.min_zero,
        Nat.sub_zero, Nat.zero_mul]
      rw [Nat.add_zero, hquot]
      have := Nat.div_add_mod n WC_AMOUNT_SCALE
      simp only [WC_AMOUNT_SCALE] at *
      omega
    rw [hN, if_pos hn]
    congr 2
    by_cases hq : n / WC_AMOUNT_SCALE = 0
    · obtain ⟨h48, hnil⟩ := hzero hq
      subst h48; subst hnil
      simp
    · rw [hpos hq]
      simp
  · -- fractional field present
    obtain ⟨hfd, hfne, hflast, hflen, hfval⟩ :=
      fracField_spec (n % WC_AMOUNT_SCALE) (by omega)
        (by have := Nat.mod_lt n (y := WC_AMOUNT_SCALE) (by simp [WC_AMOUNT_SCALE])
            simpa [WC_AMOUNT_SCALE] using this)
    set fds := stripTrailingZeros (zeroPad8 (n % WC_AMOUNT_SCALE)) with hfds
    have hfmt : wc_to_bstring_nonneg n = (d :: ds') ++ (if true then 46 :: fds else []) := by
      simp only [wc_to_bstring_nonneg, if_neg hrem, hdds, hfds]
      simp [List.append_assoc]
    rw [hfmt, wc_amount_scan_spec d ds' fds true hddig hds'dig hfd
      (by intro c hc
          rw [List.drop_eq_nil_of_le (by omega)] at hc
          cases hc)
      (by intro h; cases h)]
    have htake : fds.take 8 = fds := List.take_of_length_le hflen
    have hmin : min 8 fds.length = fds.length := Nat.min_eq_right hflen
    have hN : accDigits 0 (d :: ds') * 10 ^ 8
        + accDigits 0 (fds.take 8) * 10 ^ (8 - min 8 fds.length) = n := by
      rw [htake, hmin, hquot, hfval]
      have := Nat.div_add_mod n WC_AMOUNT_SCALE
      simp only [WC_AMOUNT_SCALE] at *
      omega
    rw [hN, if_pos hn]
    congr 2
    simp only [↓reduceIte]
    obtain ⟨f0, ftl, hfcons⟩ : ∃ f0 ftl, fds = f0 :: ftl := by
      cases hfc : fds with
      | nil => exact absurd hfc hfne
      | cons f0 ftl => exact ⟨f0, ftl, rfl⟩
    have hlast48 : decide (((d :: ds') ++ 46 :: fds).getLast? = some 48) = false := by
      rw [List.getLast?_append_cons, hfcons, List.getLast?_cons_cons, ← hfcons]
      rcases hx : fds.getLast? with _ | c
    
      · simp
      · have := hflast c (by rw [hx]; rfl)
        simp [this]
    have hdrop : (fds.drop 8).isEmpty = true := by
      rw [List.drop_eq_nil_of_le hflen]
      rfl
    have hany : (fds.take 8).any (fun c => decide (c ≠ 48)) = true := by
      rw [htake]
      have hmem := List.getLast_mem hfne
      have hne48 := hflast (fds.getLast hfne)
        (by rw [List.getLast?_eq_getLast_of_ne_nil hfne]; rfl)
      exact List.any_eq_true.2 ⟨fds.getLast hfne, hmem, by simpa using hne48⟩
    rw [hlast48, hdrop, hany]
    have hempty : fds.isEmpty = false := by
      rw [hfcons]; rfl
    rw [hempty]
    by_cases hq : n / WC_AMOUNT_SCALE = 0
    · obtain ⟨h48, hnil⟩ := hzero hq
      subst h48; subst hnil
      simp
    · rw [hpos hq]
      simp

/-! ## The driver `wc_from_bstring` on canonical inputs -/

theorem wc_to_bstring_nonneg_ne_nil (n : Nat) : wc_to_bstring_nonneg n ≠ [] := by
  unfold wc_to_bstring_nonneg
  by_cases h : n % WC_AMOUNT_SCALE = 0
  · simp only [h, if_pos rfl]
    exact natDecDigits_ne_nil _
  · simp only [if_neg h]
    intro hx
    have := congrArg List.length hx
    simp only [List.length_append, List.length_nil] at this
    have := natDecDigits_ne_nil (n / WC_AMOUNT_SCALE)
    have : 0 < (natDecDigits (n / WC_AMOUNT_SCALE)).length := List.length_pos.2 this
    simp at this ⊢
    omega

theorem wc_to_bstring_nonneg_head (n : Nat) :
    ∃ c, (wc_to_bstring_nonneg n).head? = some c ∧ wcIsDigit c := by
  obtain ⟨d, ds', hdds⟩ := natDecDigits_head_exists (n / WC_AMOUNT_SCALE)
  have hd : wcIsDigit d := by
    have := natDecDigits_digits (n / WC_AMOUNT_SCALE) d
    rw [hdds] at this
    exact this (List.mem_cons_self _ _)
  refine ⟨d, ?_, hd⟩
  unfold wc_to_bstring_nonneg
  by_cases h : n % WC_AMOUNT_SCALE = 0
  · simp [h, hdds]
  · simp [h, hdds]

/-- Evaluation of the `wc_from_bstring` driver on `'-' :: L` when the scan
of `L` succeeds canonically with a representable nonzero magnitude. -/
theorem wc_from_bstring_neg_eval (L : List Nat) (n : Nat) (amt0 nc0 : Int)
    (hL : wc_amount_scan L = .ok (n, false)) (hne : L ≠ [])
    (hn1 : 1 ≤ n) (hn2 : n ≤ INT64_MAX + 1) :
    wc_from_bstring amt0 nc0 (45 :: L) = (.WC_SUCCESS, -(n : Int), 0) := by
  have hemp : L.isEmpty = false := by
    cases L with
    | nil => exact absurd rfl hne
    | cons a l => rfl
  unfold wc_from_bstring
  simp only [List.isEmpty_cons, Bool.false_eq_true, if_false, List.head?_cons,
    Option.some.injEq, decide_True, List.tail_cons, ↓reduceIte, hemp, hL,
    Bool.true_and, Bool.not_true, Bool.false_and, Bool.false_or, Bool.and_true]
  rw [if_neg (by
    have h2 : n ≤ 9223372036854775808 := by simpa only [INT64_MAX] using hn2
    simp only [decide_eq_true_eq, INT64_MAX]
    omega)]
  rw [show (decide (n = 0)) = false from by simp only [decide_eq_false_iff_not]; omega]
  simp

/-- Evaluation of the `wc_from_bstring` driver on an unsigned input whose
first byte is a digit, when the scan succeeds canonically within range. -/
theorem wc_from_bstring_pos_eval (L : List Nat) (c n : Nat) (amt0 nc0 : Int)
    (hL : wc_amount_scan L = .ok (n, false)) (hhead : L.head? = some c)
    (hc : wcIsDigit c) (hn : n ≤ INT64_MAX) :
    wc_from_bstring amt0 nc0 L = (.WC_SUCCESS, (n : Int), 0) := by
  have hne : L ≠ [] := by
    intro h
    rw [h] at hhead
    cases hhead
  have hemp : L.isEmpty = false := by
    cases L with
    | nil => exact absurd rfl hne
    | cons a l => rfl
  have hc45 : decide (L.head? = some 45) = false := by
    rw [hhead]
    have : c ≠ 45 := by
      simp only [wcIsDigit, Bool.and_eq_true, decide_eq_true_eq] at hc
      omega
    simp [this]
  unfold wc_from_bstring
  simp only [hemp, Bool.false_eq_true, if_false, hc45, hL, Bool.false_and,
    Bool.not_false, Bool.true_and, Bool.and_false, Bool.or_false]
  rw [if_neg (by
    have h2 : n ≤ 9223372036854775807 := by simpa only [INT64_MAX] using hn
    simp only [decide_eq_true_eq, INT64_MAX]
    omega)]

/-- **C1.** For every 64-bit signed amount `a`, formatting `a` with
`wc_to_bstring` and then parsing the result with `wc_from_bstring` succeeds
and returns exactly `a` with the noncanonical flag equal to `0` — for any
prior contents of the two out-cells; in particular the most-negative amount
formats as `"-92233720368.54775808"` (and, by the first part, round-trips). -/
theorem wc_amount_round_trip :
    (∀ (a : Int) (amt0 nc0 : Int),
      -9223372036854775808 ≤ a → a ≤ 9223372036854775807 →
      wc_from_bstring amt0 nc0 (wc_to_bstring a) = (.WC_SUCCESS, a, 0)) ∧
    wc_to_bstring (-9223372036854775808) = wcInt64MinStr := by
  constructor
  · intro a amt0 nc0 hlo hhi
    by_cases ha : a < 0
    · have hn1 : 1 ≤ (-a).toNat := by omega
      have hn2 : (-a).toNat ≤ 9223372036854775808 := by omega
      have hfmt : wc_to_bstring a = 45 :: wc_to_bstring_nonneg (-a).toNat := by
        unfold wc_to_bstring
        rw [if_pos ha]
        by_cases hmin : a = -9223372036854775808
        · rw [if_pos hmin, hmin]
          have : ((-(-9223372036854775808 : Int)).toNat) = 9223372036854775808 := by decide
          rw [this]
          simp [wcInt64MinStr, wc_to_bstring_nonneg, WC_AMOUNT_SCALE, natDecDigits,
            zeroPad8, stripTrailingZeros]
        · rw [if_neg hmin]
      rw [hfmt, wc_from_bstring_neg_eval (wc_to_bstring_nonneg (-a).toNat) (-a).toNat
        amt0 nc0
        (wc_amount_scan_format _ (by simp only [UINT64_MAX]; omega))
        (wc_to_bstring_nonneg_ne_nil _) hn1 (by simp only [INT64_MAX]; omega)]
      congr 1
      congr 1
      omega
    · have hn : a.toNat ≤ 9223372036854775807 := by omega
      have hfmt : wc_to_bstring a = wc_to_bstring_nonneg a.toNat := by
        unfold wc_to_bstring
        rw [if_neg ha]
      obtain ⟨c, hhead, hc⟩ := wc_to_bstring_nonneg_head a.toNat
      rw [hfmt, wc_from_bstring_pos_eval (wc_to_bstring_nonneg a.toNat) c a.toNat
        amt0 nc0
        (wc_amount_scan_format _ (by simp only [UINT64_MAX]; omega))
        hhead hc (by simp only [INT64_MAX]; omega)]
      congr 2
      omega
  · rfl

/-! ## Inversion lemmas for the parser loops (completeness direction) -/

theorem wc_parse_int_loop_inv (s : List Nat) (u v : Nat) (rest : List Nat)
    (hu : u ≤ UINT64_MAX)
    (h : wc_parse_int_loop u s = .ok (v, rest)) :
    ∃ ds, s = ds ++ rest ∧ (∀ c ∈ ds, wcIsDigit c) ∧ v = accDigits u ds ∧
      v ≤ UINT64_MAX ∧ (∀ c ∈ rest.head?, ¬ wcIsDigit c) := by
  induction s generalizing u with
  | nil =>
    unfold wc_parse_int_loop at h
    cases h
    exact ⟨[], rfl, by simp, rfl, hu, by simp⟩
  | cons c cs ih =>
    unfold wc_parse_int_loop at h
    by_cases hc : wcIsDigit c
    · rw [if_pos hc] at h
      by_cases h1 : u > UINT64_MAX / 10
      · rw [if_pos h1] at h; cases h
      · rw [if_neg h1] at h
        by_cases h2 : u * 10 > UINT64_MAX - (c - 48)
        · rw [if_pos h2] at h; cases h
        · rw [if_neg h2] at h
          have hc' := wcIsDigit_bounds hc
          have hu' : u * 10 + (c - 48) ≤ UINT64_MAX := by
            simp only [UINT64_MAX] at *
            omega
          obtain ⟨ds, hs, hds, hv, hvle, hrest⟩ := ih (u * 10 + (c - 48)) hu' h
          exact ⟨c :: ds, by rw [List.cons_append, hs], by
            intro x hx
            rcases List.mem_cons.1 hx with h | h
            · subst h; exact hc
            · exact hds x h, by rw [hv, accDigits_cons], hvle, hrest⟩
    · rw [if_neg hc] at h
      cases h
      exact ⟨[], rfl, by simp, rfl, hu, by
        intro x hx
        simp only [List.head?_cons, Option.mem_def, Option.some.injEq] at hx
        subst hx
        exact hc⟩

theorem wc_parse_frac_loop_inv (s : List Nat) (j u : Nat) (f : Bool)
    (r : Nat × Nat × Bool × List Nat)
    (hj : j ≤ 8) (hu : u ≤ UINT64_MAX)
    (h : wc_parse_frac_loop j u f s = .ok r) :
    (∀ c ∈ s.take (8 - j), wcIsDigit c) ∧
    accDigits u (s.take (8 - j)) ≤ UINT64_MAX ∧
    r = (j + min (8 - j) s.length, accDigits u (s.take (8 - j)),
         f || (s.take (8 - j)).any (fun c => decide (c ≠ 48)), s.drop (8 - j)) := by
  induction s generalizing j u f with
  | nil =>
    unfold wc_parse_frac_loop at h
    cases h
    simp [hu]
  | cons c cs ih =>
    unfold wc_parse_frac_loop at h
    by_cases hj8 : j < 8
    · rw [if_pos hj8] at h
      by_cases hc : wcIsDigit c
      · rw [hc] at h
        simp only [Bool.not_true, Bool.false_eq_true, if_false] at h
        by_cases h1 : u > UINT64_MAX / 10
        · rw [if_pos h1] at h; cases h
        · rw [if_neg h1] at h
          by_cases h2 : u * 10 > UINT64_MAX - (c - 48)
          · rw [if_pos h2] at h; cases h
          · rw [if_neg h2] at h
            have hc' := wcIsDigit_bounds hc
            have hu' : u * 10 + (c - 48) ≤ UINT64_MAX := by
              simp only [UINT64_MAX] at *
              omega
            obtain ⟨hds, hle, hr⟩ := ih (j + 1) (u * 10 + (c - 48))
              (f || decide (c ≠ 48)) (by omega) hu' h
            have h8j : 8 - j = (8 - (j + 1)) + 1 := by omega
            rw [h8j, List.take_succ_cons, List.drop_succ_cons]
            refine ⟨?_, ?_, ?_⟩
            · intro x hx
              rcases List.mem_cons.1 hx with h | h
              · subst h; exact hc
              · exact hds x h
            · rw [accDigits_cons]; exact hle
            · rw [hr]
              have hmin : (j + 1) + min (8 - (j + 1)) cs.length
                  = j + min (8 - (j + 1) + 1) (c :: cs).length := by
                simp only [List.length_cons]
                omega
              rw [accDigits_cons, List.any_cons, hmin, ← Bool.or_assoc]
      · simp only [hc, Bool.not_false, Bool.true_eq_false, if_true] at h
        cases h
    · rw [if_neg hj8] at h
      cases h
      have h8j : 8 - j = 0 := by omega
      rw [h8j]
      simp [hu]

theorem wc_parse_zeros_loop_inv (s : List Nat) (b : Bool)
    (h : wc_parse_zeros_loop s = .ok b) :
    (∀ c ∈ s, c = 48) ∧ b = !s.isEmpty := by
  rw [wc_parse_zeros_loop_spec] at h
  by_cases hall : s.all (fun c => c = 48)
  · rw [if_pos hall] at h
    cases h
    exact ⟨by simpa [List.all_eq_true] using hall, rfl⟩
  · rw [if_neg hall] at h
    cases h

/-- Inversion for `wc_amount_scan`: every accepted input has the shape
`digits ('.' then digit/zero tail)?`, and the result is then given by
`wc_amount_scan_spec`. -/
theorem wc_amount_scan_inv (s1 : List Nat) (u64 : Nat) (nc : Bool)
    (h : wc_amount_scan s1 = .ok (u64, nc)) :
    ∃ d ds' fs hasDot,
      s1 = (d :: ds') ++ (if hasDot then 46 :: fs else []) ∧
      wcIsDigit d ∧ (∀ c ∈ ds', wcIsDigit c) ∧ (∀ c ∈ fs, wcIsDigit c) ∧
      (∀ c ∈ fs.drop 8, c = 48) ∧ (hasDot = false → fs = []) := by
  unfold wc_amount_scan at h
  cases hhead : s1.head? with
  | none => rw [hhead] at h; cases h
  | some c0 =>
    rw [hhead] at h
    dsimp only at h
    by_cases hc0 : wcIsDigit c0
    · rw [hc0] at h
      simp only [Bool.not_true, Bool.false_eq_true, if_false] at h
      cases hint : wc_parse_int_loop 0 s1 with
      | error e => rw [hint] at h; cases h
      | ok p =>
        obtain ⟨u64a, rest⟩ := p
        rw [hint] at h
        dsimp only at h
        obtain ⟨ds, hs, hds, hv, hvle, hrest⟩ :=
          wc_parse_int_loop_inv s1 0 u64a rest (by simp [UINT64_MAX]) hint
        obtain ⟨d, ds', hdds⟩ : ∃ d ds', ds = d :: ds' := by
          cases hdsc : ds with
          | nil =>
            rw [hdsc, List.nil_append] at hs
            subst hs
            exact absurd hc0 (hrest c0 (by rw [hhead]; rfl))
          | cons d ds' => exact ⟨d, ds', rfl⟩
        subst hdds
        have hd : wcIsDigit d := hds d (List.mem_cons_self _ _)
        have hds' : ∀ c ∈ ds', wcIsDigit c := fun c hc => hds c (List.mem_cons_of_mem _ hc)
        cases hrestc : rest with
        | nil =>
          rw [hrestc] at hs
          exact ⟨d, ds', [], false, by simpa using hs, hd, hds', by simp, by simp,
            fun _ => rfl⟩
        | cons c rest2 =>
          rw [hrestc] at h
          dsimp only at h
          by_cases hc46 : c ≠ 46
          · rw [if_pos hc46] at h; cases h
          · rw [if_neg hc46] at h
            push_neg at hc46
            subst hc46
            cases hfrac : wc_parse_frac_loop 0 u64a false rest2 with
            | error e => rw [hfrac] at h; cases h
            | ok q =>
              obtain ⟨j, u64b, isFrac, rest3⟩ := q
              rw [hfrac] at h
              dsimp only at h
              obtain ⟨hfd, hfle, hfr⟩ :=
                wc_parse_frac_loop_inv rest2 0 u64a false (j, u64b, isFrac, rest3)
                  (by omega) hvle hfrac
              cases hzeros : wc_parse_zeros_loop rest3 with
              | error e => rw [hzeros] at h; cases h
              | ok rz =>
                obtain ⟨hz48, _⟩ := wc_parse_zeros_loop_inv rest3 rz hzeros
                have hrest3 : rest3 = rest2.drop 8 := by
                  have := congrArg (fun x => x.2.2.2) hfr
                  simpa using this
                refine ⟨d, ds', rest2, true, ?_, hd, hds', ?_, ?_, by intro hx; cases hx⟩
                · rw [hrestc] at hs
                  simpa using hs
                · intro c hc
                  rw [← List.take_append_drop 8 rest2] at hc
                  rcases List.mem_append.1 hc with hmem | hmem
                  · exact hfd c (by simpa using hmem)
                  · have := hz48 c (by rw [hrest3]; exact hmem)
                    subst this
                    decide
                · intro c hc
                  exact hz48 c (by rw [hrest3]; exact hc)
    · simp only [Bool.not_eq_true] at hc0
      rw [hc0] at h
      simp only [Bool.not_false, if_true] at h
      cases h

/-! ## Uniqueness of digit representations -/

theorem accDigits_cons_split (c : Nat) (t : List Nat) :
    accDigits 0 (c :: t) = (c - 48) * 10 ^ t.length + accDigits 0 t := by
  rw [accDigits_cons, accDigits_split]
  simp

theorem accDigits_eq_zero (l : List Nat) (hl : ∀ c ∈ l, wcIsDigit c)
    (h : accDigits 0 l = 0) : ∀ c ∈ l, c = 48 := by
  induction l with
  | nil => simp
  | cons c t ih =>
    rw [accDigits_cons_split] at h
    have hpow : 0 < 10 ^ t.length := Nat.pos_pow_of_pos _ (by omega)
    have hc : c - 48 = 0 := by
      rcases Nat.eq_zero_or_pos (c - 48) with h0 | hpos
      · exact h0
      · have : 10 ^ t.length ≤ (c - 48) * 10 ^ t.length := Nat.le_mul_of_pos_left _ hpos
        omega
    have hcd := wcIsDigit_bounds (hl c (List.mem_cons_self _ _))
    intro x hx
    rcases List.mem_cons.1 hx with hx | hx
    · subst hx; omega
    · exact ih (fun y hy => hl y (List.mem_cons_of_mem _ hy)) (by omega) x hx

theorem accDigits_inj (l1 : List Nat) :
    ∀ l2 : List Nat, (∀ c ∈ l1, wcIsDigit c) → (∀ c ∈ l2, wcIsDigit c) →
    l1.length = l2.length → accDigits 0 l1 = accDigits 0 l2 → l1 = l2 := by
  induction l1 with
  | nil =>
    intro l2 _ _ hlen _
    cases l2 with
    | nil => rfl
    | cons c t => simp at hlen
  | cons c1 t1 ih =>
    intro l2 h1 h2 hlen hacc
    cases l2 with
    | nil => simp at hlen
    | cons c2 t2 =>
      simp only [List.length_cons, Nat.add_right_cancel_iff] at hlen
      rw [accDigits_cons_split, accDigits_cons_split, hlen] at hacc
      have hb1 : accDigits 0 t1 < 10 ^ t2.length := by
        rw [← hlen]
        exact accDigits_lt t1 (fun c hc => h1 c (List.mem_cons_of_mem _ hc))
      have hb2 : accDigits 0 t2 < 10 ^ t2.length :=
        accDigits_lt t2 (fun c hc => h2 c (List.mem_cons_of_mem _ hc))
      have key : ∀ a b x y P : Nat, x < P → y < P → a * P + x = b * P + y → a < b → False := by
        intro a b x y P hx hy heq hab
        have h2 : (a + 1) * P ≤ b * P := Nat.mul_le_mul_right _ (by omega)
        rw [Nat.add_mul, Nat.one_mul] at h2
        omega
      have hdigit_eq : c1 - 48 = c2 - 48 := by
        rcases Nat.lt_trichotomy (c1 - 48) (c2 - 48) with hlt | heq | hgt
        · exact ((key (c1 - 48) (c2 - 48) _ _ _ hb1 hb2 hacc hlt)).elim
        · exact heq
        · exact ((key (c2 - 48) (c1 - 48) _ _ _ hb2 hb1 hacc.symm hgt)).elim
      have hc1 := wcIsDigit_bounds (h1 c1 (List.mem_cons_self _ _))
      have hc2 := wcIsDigit_bounds (h2 c2 (List.mem_cons_self _ _))
      have hcc : c1 = c2 := by omega
      have hacc2 : accDigits 0 t1 = accDigits 0 t2 := by
        rw [hdigit_eq] at hacc
        omega
      have htt : t1 = t2 :=
        ih t2 (fun c hc => h1 c (List.mem_cons_of_mem _ hc))
          (fun c hc => h2 c (List.mem_cons_of_mem _ hc)) hlen hacc2
      rw [hcc, htt]

theorem natDecDigits_of_accDigits (l : List Nat) :
    (∀ c ∈ l, wcIsDigit c) → l ≠ [] → (∀ c ∈ l.head?, c ≠ 48) →
    natDecDigits (accDigits 0 l) = l := by
  induction l using List.reverseRecOn with
  | nil => intro _ h _; exact absurd rfl h
  | append_singleton l' d ih =>
    intro hdig hne hhead
    by_cases hl'nil : l' = []
    · subst hl'nil
      have hd := wcIsDigit_bounds (hdig d (by simp))
      simp only [List.nil_append, accDigits_cons, accDigits_nil]
      rw [natDecDigits_lt10 _ (by omega)]
      simp
      omega
    · have hl'ne : l' ≠ [] := hl'nil
      obtain ⟨e, l'', hel⟩ : ∃ e l'', l' = e :: l'' := by
        cases hx : l' with
        | nil => exact absurd hx hl'nil
        | cons e l'' => exact ⟨e, l'', rfl⟩
      have hdig' : ∀ c ∈ l', wcIsDigit c := fun c hc =>
        hdig c (List.mem_append_left _ hc)
      have hd := wcIsDigit_bounds (hdig d (List.mem_append_right _ (by simp)))
      have hhead' : ∀ c ∈ l'.head?, c ≠ 48 := by
        intro c hc
        apply hhead
        rw [List.head?_append_of_ne_nil _ hl'ne]
        exact hc
      have hpos : 1 ≤ accDigits 0 l' := by
        rcases Nat.eq_zero_or_pos (accDigits 0 l') with h0 | h1
        · exfalso
          have hall := accDigits_eq_zero l' hdig' h0
          have he48 : e = 48 := hall e (by rw [hel]; exact List.mem_cons_self _ _)
          exact hhead' e (by rw [hel]; rfl) he48
        · exact h1
      have hval : accDigits 0 (l' ++ [d]) = accDigits 0 l' * 10 + (d - 48) := by
        rw [accDigits_append, accDigits_cons, accDigits_nil]
      rw [hval, natDecDigits_ge10 _ (by omega)]
      have hdiv : (accDigits 0 l' * 10 + (d - 48)) / 10 = accDigits 0 l' := by omega
      have hmod : (accDigits 0 l' * 10 + (d - 48)) % 10 = d - 48 := by omega
      rw [hdiv, hmod, ih hdig' hl'ne hhead']
      have : 48 + (d - 48) = d := by omega
      rw [this]

/-! ## General evaluation of the `wc_from_bstring` driver -/

/-- The driver on `'-' :: L` (general scan outcome). -/
theorem wc_from_bstring_eval_neg (L : List Nat) (amt0 nc0 : Int) (hne : L ≠ []) :
    wc_from_bstring amt0 nc0 (45 :: L) =
      match wc_amount_scan L with
      | .error e => (e, amt0, nc0)
      | .ok (u64, nc) =>
        if 9223372036854775808 < u64 then (.WC_ERROR_OVERFLOW, amt0, nc0)
        else (.WC_SUCCESS, -(u64 : Int), if nc || decide (u64 = 0) then 1 else 0) := by
  have hemp : L.isEmpty = false := by
    cases L with
    | nil => exact absurd rfl hne
    | cons a l => rfl
  unfold wc_from_bstring
  simp only [List.isEmpty_cons, Bool.false_eq_true, if_false, List.head?_cons,
    Option.some.injEq, decide_True, List.tail_cons, ↓reduceIte, hemp,
    Bool.true_and, Bool.not_true, Bool.false_and, Bool.false_or, Bool.and_true]
  cases hscan : wc_amount_scan L with
  | error e => rfl
  | ok p =>
    obtain ⟨u64, nc⟩ := p
    dsimp only
    by_cases hov : 9223372036854775808 < u64
    · rw [if_pos (by simp only [decide_eq_true_eq, INT64_MAX]; omega), if_pos hov]
    · rw [if_neg (by simp only [decide_eq_true_eq, INT64_MAX]; omega), if_neg hov]

/-- The driver on an input whose first byte is not `'-'` (general scan
outcome). -/
theorem wc_from_bstring_eval_nonneg (L : List Nat) (c : Nat) (amt0 nc0 : Int)
    (hhead : L.head? = some c) (hc45 : c ≠ 45) :
    wc_from_bstring amt0 nc0 L =
      match wc_amount_scan L with
      | .error e => (e, amt0, nc0)
      | .ok (u64, nc) =>
        if 9223372036854775807 < u64 then (.WC_ERROR_OVERFLOW, amt0, nc0)
        else (.WC_SUCCESS, (u64 : Int), if nc then 1 else 0) := by
  have hne : L ≠ [] := by
    intro h
    rw [h] at hhead
    cases hhead
  have hemp : L.isEmpty = false := by
    cases L with
    | nil => exact absurd rfl hne
    | cons a l => rfl
  have hc45' : decide (L.head? = some 45) = false := by
    rw [hhead]
    simp [hc45]
  unfold wc_from_bstring
  simp only [hemp, Bool.false_eq_true, if_false, hc45', Bool.false_and,
    Bool.not_false, Bool.true_and, Bool.and_false, Bool.or_false]
  cases hscan : wc_amount_scan L with
  | error e => rfl
  | ok p =>
    obtain ⟨u64, nc⟩ := p
    dsimp only
    by_cases hov : 9223372036854775807 < u64
    · rw [if_pos (by simp only [decide_eq_true_eq, INT64_MAX]; omega), if_pos hov]
    · rw [if_neg (by simp only [decide_eq_true_eq, INT64_MAX]; omega), if_neg hov]

/-! ## Error codes produced by the parser are never `WC_SUCCESS` -/

theorem wc_parse_int_loop_error_ne (u : Nat) (s : List Nat) (e : WcErr)
    (h : wc_parse_int_loop u s = .error e) : e ≠ .WC_SUCCESS := by
  induction s generalizing u with
  | nil => unfold wc_parse_int_loop at h; cases h
  | cons c cs ih =>
    unfold wc_parse_int_loop at h
    by_cases hc : wcIsDigit c
    · rw [if_pos hc] at h
      by_cases h1 : u > UINT64_MAX / 10
      · rw [if_pos h1] at h; cases h; intro hx; cases hx
      · rw [if_neg h1] at h
        by_cases h2 : u * 10 > UINT64_MAX - (c - 48)
        · rw [if_pos h2] at h; cases h; intro hx; cases hx
        · rw [if_neg h2] at h; exact ih _ h
    · rw [if_neg hc] at h; cases h

theorem wc_parse_frac_loop_error_ne (j u : Nat) (f : Bool) (s : List Nat) (e : WcErr)
    (h : wc_parse_frac_loop j u f s = .error e) : e ≠ .WC_SUCCESS := by
  induction s generalizing j u f with
  | nil => unfold wc_parse_frac_loop at h; cases h
  | cons c cs ih =>
    unfold wc_parse_frac_loop at h
    by_cases hj : j < 8
    · rw [if_pos hj] at h
      by_cases hc : wcIsDigit c
      · rw [hc] at h
        simp only [Bool.not_true, Bool.false_eq_true, if_false] at h
        by_cases h1 : u > UINT64_MAX / 10
        · rw [if_pos h1] at h; cases h; intro hx; cases hx
        · rw [if_neg h1] at h
          by_cases h2 : u * 10 > UINT64_MAX - (c - 48)
          · rw [if_pos h2] at h; cases h; intro hx; cases hx
          · rw [if_neg h2] at h; exact ih _ _ _ h
      · simp only [Bool.not_eq_true] at hc
        rw [hc] at h
        simp only [Bool.not_false, if_true] at h
        cases h; intro hx; cases hx
    · rw [if_neg hj] at h; cases h

theorem wc_parse_zeros_loop_error_ne (s : List Nat) (e : WcErr)
    (h : wc_parse_zeros_loop s = .error e) : e ≠ .WC_SUCCESS := by
  rw [wc_parse_zeros_loop_spec] at h
  by_cases hall : s.all (fun c => c = 48)
  · rw [if_pos hall] at h; cases h
  · rw [if_neg hall] at h; cases h; intro hx; cases hx

theorem wc_scale_go_error_ne (k u : Nat) (e : WcErr)
    (h : wc_scale_go k u = .error e) : e ≠ .WC_SUCCESS := by
  induction k generalizing u with
  | zero => unfold wc_scale_go at h; cases h
  | succ k ih =>
    unfold wc_scale_go at h
    by_cases h1 : u > UINT64_MAX / 10
    · rw [if_pos h1] at h; cases h; intro hx; cases hx
    · rw [if_neg h1] at h; exact ih _ h

theorem wc_amount_scan_error_ne (s1 : List Nat) (e : WcErr)
    (h : wc_amount_scan s1 = .error e) : e ≠ .WC_SUCCESS := by
  unfold wc_amount_scan at h
  cases hhead : s1.head? with
  | none => rw [hhead] at h; cases h; intro hx; cases hx
  | some c0 =>
    rw [hhead] at h
    dsimp only at h
    by_cases hc0 : wcIsDigit c0
    · rw [hc0] at h
      simp only [Bool.not_true, Bool.false_eq_true, if_false] at h
      cases hint : wc_parse_int_loop 0 s1 with
      | error e' =>
        rw [hint] at h
        cases h
        exact wc_parse_int_loop_error_ne _ _ _ hint
      | ok p =>
        obtain ⟨u64a, rest⟩ := p
        rw [hint] at h
        dsimp only at h
        cases hrestc : rest with
        | nil =>
          rw [hrestc] at h
          dsimp only at h
          cases hsc : wc_scale_go (8 - 0) u64a with
          | error e' =>
            rw [show wc_scale_loop 0 u64a = wc_scale_go (8 - 0) u64a from rfl, hsc] at h
            cases h
            exact wc_scale_go_error_ne _ _ _ hsc
          | ok v =>
            rw [show wc_scale_loop 0 u64a = wc_scale_go (8 - 0) u64a from rfl, hsc] at h
            cases h
        | cons c rest2 =>
          rw [hrestc] at h
          dsimp only at h
          by_cases hc46 : c ≠ 46
          · rw [if_pos hc46] at h; cases h; intro hx; cases hx
          · rw [if_neg hc46] at h
            cases hfrac : wc_parse_frac_loop 0 u64a false rest2 with
            | error e' =>
              rw [hfrac] at h
              cases h
              exact wc_parse_frac_loop_error_ne _ _ _ _ _ hfrac
            | ok q =>
              obtain ⟨j, u64b, isFrac, rest3⟩ := q
              rw [hfrac] at h
              dsimp only at h
              cases hz : wc_parse_zeros_loop rest3 with
              | error e' =>
                rw [hz] at h
                cases h
                exact wc_parse_zeros_loop_error_ne _ _ hz
              | ok rz =>
                rw [hz] at h
                dsimp only at h
                cases hsc : wc_scale_go (8 - j) u64b with
                | error e' =>
                  rw [show wc_scale_loop j u64b = wc_scale_go (8 - j) u64b from rfl, hsc] at h
                  cases h
                  exact wc_scale_go_error_ne _ _ _ hsc
                | ok v =>
                  rw [show wc_scale_loop j u64b = wc_scale_go (8 - j) u64b from rfl, hsc] at h
                  cases h
    · simp only [Bool.not_eq_true] at hc0
      rw [hc0] at h
      simp only [Bool.not_false, if_true] at h
      cases h; intro hx; cases hx

/-- Witness for C1: the round-trip law applied at the most-negative amount
with arbitrary prior cell contents. -/
theorem wc_amount_round_trip_witness :
    wc_from_bstring 5 7 (wc_to_bstring (-9223372036854775808))
      = (.WC_SUCCESS, -9223372036854775808, 0) :=
  wc_amount_round_trip.1 (-9223372036854775808) 5 7 (by decide) (by decide)

/-- **C5 (amended).**  `wc_from_bstring` fails with the overflow error
exactly when the accumulated scaled magnitude exceeds the signed 64-bit
range (`2^63` for a negative input, `2^63 - 1` for a nonnegative one); and
the boundary value `-2^63` is reached *with noncanonical flag 0* only by
the input string `"-92233720368.54775808"`.  (The original claim — that no
other accepted input at all parses to `-2^63` — is refuted by
`wc_from_bstring_min_noncanonical` below: noncanonical spellings such as
`"-92233720368.547758080"` also parse to `-2^63`.) -/
theorem wc_from_bstring_overflow_boundary :
    (∀ (neg hasDot : Bool) (d : Nat) (ds' fs : List Nat) (amt0 nc0 : Int),
      wcIsDigit d → (∀ c ∈ ds', wcIsDigit c) → (∀ c ∈ fs, wcIsDigit c) →
      (∀ c ∈ fs.drop 8, c = 48) → (hasDot = false → fs = []) →
      ((wc_from_bstring amt0 nc0
          ((if neg then [45] else []) ++ (d :: ds')
            ++ (if hasDot then 46 :: fs else []))).1
        = WcErr.WC_ERROR_OVERFLOW
       ↔ (if neg then 9223372036854775808 else 9223372036854775807)
          < accDigits 0 (d :: ds') * 10 ^ 8
            + accDigits 0 (fs.take 8) * 10 ^ (8 - min 8 fs.length))) ∧
    (∀ (s : List Nat) (amt0 nc0 : Int),
      wc_from_bstring amt0 nc0 s = (.WC_SUCCESS, -9223372036854775808, 0) →
      s = wcInt64MinStr) := by
  constructor
  · intro neg hasDot d ds' fs amt0 nc0 hd hds hfs hfs8 hnd
    have hspec := wc_amount_scan_spec d ds' fs hasDot hd hds hfs hfs8 hnd
    have hdb := wcIsDigit_bounds hd
    rw [List.cons_append] at hspec
    cases neg with
    | false =>
      simp only [Bool.false_eq_true, if_false, List.nil_append, List.cons_append]
      rw [wc_from_bstring_eval_nonneg
            (d :: (ds' ++ if hasDot then 46 :: fs else [])) d amt0 nc0 rfl
            (by omega), hspec]
      by_cases hle : accDigits 0 (d :: ds') * 10 ^ 8
          + accDigits 0 (fs.take 8) * 10 ^ (8 - min 8 fs.length) ≤ UINT64_MAX
      · rw [if_pos hle]
        dsimp only
        by_cases hov : 9223372036854775807 < accDigits 0 (d :: ds') * 10 ^ 8
            + accDigits 0 (fs.take 8) * 10 ^ (8 - min 8 fs.length)
        · rw [if_pos hov]
          exact iff_of_true rfl (by simpa using hov)
        · rw [if_neg hov]
          exact iff_of_false (fun hx => WcErr.noConfusion hx) (by simpa using hov)
      · rw [if_neg hle]
        dsimp only
        exact iff_of_true rfl (by simp only [UINT64_MAX] at hle; simp; omega)
    | true =>
      simp only [↓reduceIte]
      rw [List.append_assoc, List.singleton_append, List.cons_append]
      rw [wc_from_bstring_eval_neg _ amt0 nc0 (by simp), hspec]
      by_cases hle : accDigits 0 (d :: ds') * 10 ^ 8
          + accDigits 0 (fs.take 8) * 10 ^ (8 - min 8 fs.length) ≤ UINT64_MAX
      · rw [if_pos hle]
        dsimp only
        by_cases hov : 9223372036854775808 < accDigits 0 (d :: ds') * 10 ^ 8
            + accDigits 0 (fs.take 8) * 10 ^ (8 - min 8 fs.length)
        · rw [if_pos hov]
          exact iff_of_true rfl (by simpa using hov)
        · rw [if_neg hov]
          exact iff_of_false (fun hx => WcErr.noConfusion hx) (by simpa using hov)
      · rw [if_neg hle]
        dsimp only
        exact iff_of_true rfl (by simp only [UINT64_MAX] at hle; simp; omega)
  · intro s amt0 nc0 h
    cases s with
    | nil =>
      rw [show wc_from_bstring amt0 nc0 []
            = (.WC_ERROR_INVALID_ARGUMENT, amt0, nc0) from rfl] at h
      rw [Prod.mk.injEq] at h
      exact absurd h.1 (by decide)
    | cons c s' =>
      by_cases hc45 : c = 45
      · subst hc45
        cases s' with
        | nil =>
          rw [show wc_from_bstring amt0 nc0 [45]
                = (.WC_ERROR_INVALID_ARGUMENT, amt0, nc0) from rfl] at h
          rw [Prod.mk.injEq] at h
          exact absurd h.1 (by decide)
        | cons c2 s'' =>
          rw [wc_from_bstring_eval_neg (c2 :: s'') amt0 nc0 (by simp)] at h
          cases hscan : wc_amount_scan (c2 :: s'') with
          | error e =>
            rw [hscan] at h
            dsimp only at h
            rw [Prod.mk.injEq] at h
            exact absurd h.1 (wc_amount_scan_error_ne _ _ hscan)
          | ok p =>
            obtain ⟨u64, nc'⟩ := p
            rw [hscan] at h
            dsimp only at h
            by_cases hov : 9223372036854775808 < u64
            · rw [if_pos hov] at h
              rw [Prod.mk.injEq] at h
              exact absurd h.1 (by decide)
            · rw [if_neg hov] at h
              rw [Prod.mk.injEq, Prod.mk.injEq] at h
              obtain ⟨-, hamt, hnc⟩ := h
              have hu : u64 = 9223372036854775808 := by omega
              have hcond : (nc' || decide (u64 = 0)) = false := by
                by_cases hb : (nc' || decide (u64 = 0)) = true
                · rw [if_pos hb] at hnc
                  exact absurd hnc (by decide)
                · simp only [Bool.not_eq_true] at hb
                  exact hb
              simp only [Bool.or_eq_false_iff] at hcond
              have hnc' : nc' = false := hcond.1
              obtain ⟨d, ds', fs, hasDot, hshape, hd, hds, hfs, hfs8, hnd⟩ :=
                wc_amount_scan_inv _ _ _ hscan
              rw [hshape] at hscan
              rw [wc_amount_scan_spec d ds' fs hasDot hd hds hfs hfs8 hnd] at hscan
              by_cases hle : accDigits 0 (d :: ds') * 10 ^ 8
                  + accDigits 0 (fs.take 8) * 10 ^ (8 - min 8 fs.length)
                  ≤ UINT64_MAX
              · rw [if_pos hle] at hscan
                rw [Except.ok.injEq, Prod.mk.injEq] at hscan
                obtain ⟨hN, hNC⟩ := hscan
                rw [hu] at hN
                rw [hnc'] at hNC
                cases hasDot with
                | false =>
                  exfalso
                  rw [hnd rfl] at hN
                  simp only [List.take_nil, accDigits_nil, List.length_nil,
                    Nat.zero_mul, Nat.min_zero, Nat.sub_zero] at hN
                  rw [Nat.add_zero] at hN
                  have hp : (10 : Nat) ^ 8 = 100000000 := by norm_num
                  rw [hp] at hN
                  omega
                | true =>
                  simp only [↓reduceIte, Bool.true_and, List.cons_append,
                    Bool.or_eq_false_iff] at hNC
                  obtain ⟨hB1, ⟨⟨-, -⟩, hdropE⟩, -⟩ := hNC
                  have hdrop : fs.drop 8 = [] := by
                    cases hx : fs.drop 8 with
                    | nil => rfl
                    | cons a t =>
                      rw [hx] at hdropE
                      exact Bool.noConfusion hdropE
                  have hm : fs.length ≤ 8 := by
                    have := congrArg List.length hdrop
                    simp only [List.length_drop, List.length_nil] at this
                    omega
                  rw [List.take_of_length_le hm, min_eq_right hm] at hN
                  have hF : accDigits 0 fs < 10 ^ fs.length := accDigits_lt fs hfs
                  have hGlt : accDigits 0 fs * 10 ^ (8 - fs.length) < 10 ^ 8 := by
                    calc accDigits 0 fs * 10 ^ (8 - fs.length)
                        < 10 ^ fs.length * 10 ^ (8 - fs.length) :=
                          Nat.mul_lt_mul_of_lt_of_le hF (Nat.le_refl _)
                            (Nat.pos_pow_of_pos _ (by omega))
                      _ = 10 ^ 8 := by rw [← pow_add]; congr 1; omega
                  have hp : (10 : Nat) ^ 8 = 100000000 := by norm_num
                  rw [hp] at hN hGlt
                  have hA92 : accDigits 0 (d :: ds') = 92233720368 := by omega
                  have hG54 : accDigits 0 fs * 10 ^ (8 - fs.length) = 54775808 := by
                    omega
                  have hm8 : fs.length = 8 := by
                    rcases hk : 8 - fs.length with _ | j
                    · omega
                    · exfalso
                      rw [hk, pow_succ, ← Nat.mul_assoc] at hG54
                      generalize accDigits 0 fs * 10 ^ j = X at hG54
                      omega
                  have hF54 : accDigits 0 fs = 54775808 := by
                    rw [hm8] at hG54
                    norm_num at hG54
                    exact hG54
                  have hfs_eq : fs = [53, 52, 55, 55, 53, 56, 48, 56] :=
                    accDigits_inj fs [53, 52, 55, 55, 53, 56, 48, 56] hfs
                      (by decide) (by rw [hm8]; rfl) (by rw [hF54]; decide)
                  have hd48 : d ≠ 48 := by
                    intro hd48
                    subst hd48
                    have h1 : decide ((48 : Nat) = 48) = true := by decide
                    have h2 : decide (((48 : Nat) :: (ds' ++ 46 :: fs)).length ≠ 1)
                        = true :=
                      decide_eq_true
                        (by simp only [List.length_cons, List.length_append]; omega)
                    rw [h1, Bool.true_and, h2, Bool.true_and,
                      decide_eq_false_iff_not, not_not] at hB1
                    cases hds'c : ds' with
                    | nil =>
                      rw [hds'c] at hA92
                      exact absurd hA92 (by decide)
                    | cons e ds'' =>
                      rw [hds'c] at hB1
                      simp only [List.cons_append, List.getElem?_cons_succ,
                        List.getElem?_cons_zero] at hB1
                      have he := hds e (by rw [hds'c]; exact List.mem_cons_self _ _)
                      have heb := wcIsDigit_bounds he
                      have he46 : e = 46 := by injection hB1
                      omega
                  have hlit : natDecDigits (accDigits 0 (d :: ds')) = d :: ds' :=
                    natDecDigits_of_accDigits (d :: ds')
                      (by intro c hc
                          rcases List.mem_cons.1 hc with hc | hc
                          · subst hc; exact hd
                          · exact hds c hc)
                      (by intro hx; cases hx)
                      (by intro c hc
                          rw [List.head?_cons, Option.mem_def,
                            Option.some.injEq] at hc
                          subst hc
                          exact hd48)
                  rw [hA92] at hlit
                  have heval : natDecDigits 92233720368
                      = [57, 50, 50, 51, 51, 55, 50, 48, 51, 54, 56] := by
                    simp [natDecDigits]
                  have hDS : d :: ds' = [57, 50, 50, 51, 51, 55, 50, 48, 51, 54, 56] :=
                    hlit.symm.trans heval
                  simp only [↓reduceIte] at hshape
                  rw [hshape, hDS, hfs_eq]
                  decide
              · rw [if_neg hle] at hscan
                cases hscan
      · rw [wc_from_bstring_eval_nonneg (c :: s') c amt0 nc0 rfl hc45] at h
        cases hscan : wc_amount_scan (c :: s') with
        | error e =>
          rw [hscan] at h
          dsimp only at h
          rw [Prod.mk.injEq] at h
          exact absurd h.1 (wc_amount_scan_error_ne _ _ hscan)
        | ok p =>
          obtain ⟨u64, nc'⟩ := p
          rw [hscan] at h
          dsimp only at h
          by_cases hov : 9223372036854775807 < u64
          · rw [if_pos hov] at h
            rw [Prod.mk.injEq] at h
            exact absurd h.1 (by decide)
          · rw [if_neg hov] at h
            rw [Prod.mk.injEq, Prod.mk.injEq] at h
            obtain ⟨-, hamt, -⟩ := h
            exact absurd hamt (by omega)

/-- Witness for C5: the overflow characterization applied at the concrete
input `"-92233720368.54775809"` (one above the most-negative magnitude),
which overflows. -/
theorem wc_from_bstring_overflow_boundary_witness :
    (wc_from_bstring 3 7
      [45, 57, 50, 50, 51, 51, 55, 50, 48, 51, 54, 56, 46,
       53, 52, 55, 55, 53, 56, 48, 57]).1 = WcErr.WC_ERROR_OVERFLOW :=
  (wc_from_bstring_overflow_boundary.1 true true 57
      [50, 50, 51, 51, 55, 50, 48, 51, 54, 56]
      [53, 52, 55, 55, 53, 56, 48, 57] 3 7
      (by decide) (by decide) (by decide) (by decide)
      (by intro hx; cases hx)).mpr (by decide)

/-- Counterexample to C5 as stated: the noncanonical spelling
`"-92233720368.547758080"` (a trailing extra zero) is also accepted and
parses to `-2^63`, so the boundary value is *not* reachable only by
`"-92233720368.54775808"`; the parse does flag it noncanonical. -/
theorem wc_from_bstring_min_noncanonical :
    wc_from_bstring 0 0
        [45, 57, 50, 50, 51, 51, 55, 50, 48, 51, 54, 56, 46,
         53, 52, 55, 55, 53, 56, 48, 56, 48]
      = (.WC_SUCCESS, -9223372036854775808, 1) ∧
    [45, 57, 50, 50, 51, 51, 55, 50, 48, 51, 54, 56, 46,
     53, 52, 55, 55, 53, 56, 48, 56, 48] ≠ wcInt64MinStr := by
  constructor
  · decide
  · decide

/-- No byte of a well-formed numeric body (digits, optional `'.'` and
fractional digits) is a double quote (byte 34). -/
theorem wc_shape_no_quote (d : Nat) (ds' fs : List Nat) (hasDot : Bool)
    (hd : wcIsDigit d) (hds : ∀ c ∈ ds', wcIsDigit c)
    (hfs : ∀ c ∈ fs, wcIsDigit c) :
    34 ∉ (d :: ds') ++ (if hasDot then 46 :: fs else []) := by
  intro hmem
  rcases List.mem_append.1 hmem with hm | hm
  · rcases List.mem_cons.1 hm with hm | hm
    · have := wcIsDigit_bounds hd
      omega
    · have := wcIsDigit_bounds (hds _ hm)
      omega
  · cases hasDot with
    | false =>
      simp only [Bool.false_eq_true, if_false, List.not_mem_nil] at hm
    | true =>
      rw [if_pos rfl] at hm
      rcases List.mem_cons.1 hm with hm | hm
      · exact absurd hm (by decide)
      · have := wcIsDigit_bounds (hfs _ hm)
        omega

/-- **C4 (amended).**  `wc_from_bstring` accepts only `[-]?<digits>(.<digits>)?`:
no accepted input contains a double-quote byte at all, so amount strings
surrounded by double quotes are rejected rather than accepted with the
noncanonical flag.  (The original claim is refuted by
`wc_from_bstring_quoted_rejected` below: `"\x22 1.5 \x22"` fails with
`WC_ERROR_INVALID_ARGUMENT` while the unquoted body parses fine.) -/
theorem wc_from_bstring_rejects_quotes :
    ∀ (s : List Nat) (amt0 nc0 : Int),
      (wc_from_bstring amt0 nc0 s).1 = WcErr.WC_SUCCESS → 34 ∉ s := by
  intro s amt0 nc0 h
  cases s with
  | nil =>
    rw [show wc_from_bstring amt0 nc0 []
          = (.WC_ERROR_INVALID_ARGUMENT, amt0, nc0) from rfl] at h
    exact WcErr.noConfusion h
  | cons c s' =>
    by_cases hc45 : c = 45
    · subst hc45
      cases s' with
      | nil =>
        rw [show wc_from_bstring amt0 nc0 [45]
              = (.WC_ERROR_INVALID_ARGUMENT, amt0, nc0) from rfl] at h
        exact WcErr.noConfusion h
      | cons c2 s'' =>
        rw [wc_from_bstring_eval_neg (c2 :: s'') amt0 nc0 (by simp)] at h
        cases hscan : wc_amount_scan (c2 :: s'') with
        | error e =>
          rw [hscan] at h
          dsimp only at h
          exact absurd h (wc_amount_scan_error_ne _ _ hscan)
        | ok p =>
          obtain ⟨u64, nc'⟩ := p
          obtain ⟨d, ds', fs, hasDot, hshape, hd, hds, hfs, hfs8, hnd⟩ :=
            wc_amount_scan_inv _ _ _ hscan
          rw [hshape]
          intro hmem
          rcases List.mem_cons.1 hmem with hm | hm
          · exact absurd hm (by decide)
          · exact wc_shape_no_quote d ds' fs hasDot hd hds hfs hm
    · rw [wc_from_bstring_eval_nonneg (c :: s') c amt0 nc0 rfl hc45] at h
      cases hscan : wc_amount_scan (c :: s') with
      | error e =>
        rw [hscan] at h
        dsimp only at h
        exact absurd h (wc_amount_scan_error_ne _ _ hscan)
      | ok p =>
        obtain ⟨u64, nc'⟩ := p
        obtain ⟨d, ds', fs, hasDot, hshape, hd, hds, hfs, hfs8, hnd⟩ :=
          wc_amount_scan_inv _ _ _ hscan
        rw [hshape]
        exact wc_shape_no_quote d ds' fs hasDot hd hds hfs

/-- Witness for C4: the accepted input `"1.5"` indeed contains no quote
byte, by the amended theorem applied at that input. -/
theorem wc_from_bstring_rejects_quotes_witness : 34 ∉ [49, 46, 53] :=
  wc_from_bstring_rejects_quotes [49, 46, 53] 0 0 (by decide)

/-- Counterexample to C4 as stated: the symmetrically quoted amount string
`"\x22 1.5 \x22"` (bytes `34 49 46 53 34`) is rejected with
`WC_ERROR_INVALID_ARGUMENT`, leaving the out-cells untouched — it is not
accepted with the noncanonical flag 1 — although its unquoted body `"1.5"`
parses successfully (and canonically). -/
theorem wc_from_bstring_quoted_rejected :
    wc_from_bstring 3 7 [34, 49, 46, 53, 34] = (.WC_ERROR_INVALID_ARGUMENT, 3, 7) ∧
    wc_from_bstring 3 7 [49, 46, 53] = (.WC_SUCCESS, 150000000, 0) :=
  ⟨by decide, by decide⟩

/-! ## SHA-256 (FIPS 180-4)

The repository computes hashes through libsha2 (`<sha2/sha256.h>`), which is
an external dependency whose code is not part of this repository.  The
functions below are therefore *modelled from the specification's description
of the hash* (standard SHA-256): 32-bit words are `Nat`s reduced modulo
`2^32` at every arithmetic step, messages are byte lists, and the streaming
context of libsha2 (`struct sha256_ctx`) is represented by the list of bytes
absorbed so far.  Missing from the model: libsha2's incremental buffering
and its vectorized implementations (`sha256_auto_detect`), which the spec
describes as bit-identical to the scalar compression function. -/

def w32 (n : Nat) : Nat := n % 4294967296

def rotr (n x : Nat) : Nat := w32 ((x >>> n) ||| (x <<< (32 - n)))

def bigSigma0 (x : Nat) : Nat := rotr 2 x ^^^ rotr 13 x ^^^ rotr 22 x

def bigSigma1 (x : Nat) : Nat := rotr 6 x ^^^ rotr 11 x ^^^ rotr 25 x

def smallSigma0 (x : Nat) : Nat := rotr 7 x ^^^ rotr 18 x ^^^ (x >>> 3)

def smallSigma1 (x : Nat) : Nat := rotr 17 x ^^^ rotr 19 x ^^^ (x >>> 10)

def sha_ch (x y z : Nat) : Nat := (x &&& y) ^^^ ((x ^^^ 4294967295) &&& z)

def sha_maj (x y z : Nat) : Nat := (x &&& y) ^^^ (x &&& z) ^^^ (y &&& z)

/-- The 64 SHA-256 round constants. -/
def K256 : List Nat := [
  1116352408, 1899447441, 3049323471, 3921009573, 961987163, 1508970993,
  2453635748, 2870763221, 3624381080, 310598401, 607225278, 1426881987,
  1925078388, 2162078206, 2614888103, 3248222580, 3835390401, 4022224774,
  264347078, 604807628, 770255983, 1249150122, 1555081692, 1996064986,
  2554220882, 2821834349, 2952996808, 3210313671, 3336571891, 3584528711,
  113926993, 338241895, 666307205, 773529912, 1294757372, 1396182291,
  1695183700, 1986661051, 2177026350, 2456956037, 2730485921, 2820302411,
  3259730800, 3345764771, 3516065817, 3600352804, 4094571909, 275423344,
  430227734, 506948616, 659060556, 883997877, 958139571, 1322822218,
  1537002063, 1747873779, 1955562222, 2024104815, 2227730452, 2361852424,
  2428436474, 2756734187, 3204031479, 3329325298]

/-- The SHA-256 initial hash state (`SHA256_INIT` of libsha2). -/
def sha256H0 : List Nat := [
  1779033703, 3144134277, 1013904242, 2773480762, 1359893119, 2600822924,
  528734635, 1541459225]

/-- Big-endian 32-bit words from a byte list (groups of four). -/
def beWords : List Nat → List Nat
  | a :: b :: c :: d :: rest => (((a * 256 + b) * 256 + c) * 256 + d) :: beWords rest
  | _ => []

/-- The eight big-endian bytes of a 64-bit value. -/
def be64 (n : Nat) : List Nat :=
  [(n >>> 56) % 256, (n >>> 48) % 256, (n >>> 40) % 256, (n >>> 32) % 256,
   (n >>> 24) % 256, (n >>> 16) % 256, (n >>> 8) % 256, n % 256]

/-- The four big-endian bytes of a 32-bit word. -/
def be32 (n : Nat) : List Nat :=
  [(n >>> 24) % 256, (n >>> 16) % 256, (n >>> 8) % 256, n % 256]

/-- Message-schedule extension: append `fuel` further words, each computed
from the 2nd-, 7th-, 15th- and 16th-to-last words so far. -/
def sha256Extend : Nat → List Nat → List Nat
  | 0, ws => ws
  | fuel + 1, ws =>
    sha256Extend fuel (ws ++ [w32 (smallSigma1 (ws.getD (ws.length - 2) 0)
      + ws.getD (ws.length - 7) 0
      + smallSigma0 (ws.getD (ws.length - 15) 0)
      + ws.getD (ws.length - 16) 0)])

/-- One compression of a 16-word block into an 8-word state (rounds plus the
final Davies–Meyer addition). -/
def sha256Compress (st0 ws16 : List Nat) : List Nat :=
  let ws := sha256Extend 48 ws16
  let fin := (K256.zip ws).foldl (fun st kw =>
    match st with
    | [a, b, c, d, e, f, g, h] =>
      let t1 := w32 (h + bigSigma1 e + sha_ch e f g + kw.1 + kw.2)
      let t2 := w32 (bigSigma0 a + sha_maj a b c)
      [w32 (t1 + t2), a, b, c, w32 (d + t1), e, f, g]
    | st => st) st0
  (st0.zip fin).map (fun p => w32 (p.1 + p.2))

/-- `fuel`-bounded split into 64-byte chunks (`fuel = length` suffices). -/
def chunks64F : Nat → List Nat → List (List Nat)
  | 0, _ => []
  | fuel + 1, bs =>
    if bs.isEmpty then [] else bs.take 64 :: chunks64F fuel (bs.drop 64)

def sha256Chunks (bs : List Nat) : List (List Nat) := chunks64F bs.length bs

/-- FIPS 180-4 padding: `0x80`, zeros to 56 mod 64, then the bit length as
a big-endian 64-bit value. -/
def sha256pad (m : List Nat) : List Nat :=
  m ++ 128 :: (List.replicate ((119 - m.length % 64) % 64) 0 ++ be64 (8 * m.length))

/-- Fold the compression function over a whole (block-aligned) byte string
from a given state — the state of a libsha2 `sha256_ctx` that has absorbed
those bytes. -/
def sha256StateAfter (st : List Nat) (bs : List Nat) : List Nat :=
  (sha256Chunks bs).foldl (fun s blk => sha256Compress s (beWords blk)) st

/-- The 32 digest bytes of an 8-word state. -/
def sha256StateBytes (st : List Nat) : List Nat := (st.map be32).flatten

/-- SHA-256 of a byte string (`sha256_init`/`sha256_update`/`sha256_done`
over the whole message). -/
def sha256 (m : List Nat) : List Nat :=
  sha256StateBytes (sha256StateAfter sha256H0 (sha256pad m))

theorem sha256_abc :
    sha256 [97, 98, 99]
      = [186, 120, 22, 191, 143, 1, 207, 234, 65, 65, 64, 222, 93, 174, 34, 35,
         176, 3, 97, 163, 150, 23, 122, 156, 180, 16, 255, 97, 242, 0, 21, 173] := by
  decide

/-! ## Secrets and public hashes (webcash.c)

`wc_secret_t` is `{ wc_amount_t amount; bstring serial; }` where the
`serial` pointer may be NULL; `wc_public_t` is `{ wc_amount_t amount;
struct sha256 hash; }`.  Pointers to the structures themselves are modelled
as `Option` arguments where the source checks for NULL, and out-pointers as
threaded cells (the NULL-out-pointer early return of the source is outside
the cell model).  A bstring with negative `slen` or NULL `data` is not
representable. -/

structure WcSecret where
  amount : Int
  serial : Option (List Nat)
deriving DecidableEq, Repr

structure WcPublic where
  amount : Int
  hash : List Nat
deriving DecidableEq, Repr

/-- `wc_secret_to_string(bstr, secret)`.  `bstr0` is the previous contents
of the `*bstr` cell (`none` = NULL).  `bformat("e%s:secret:%s", …)` reads
the serial as a C string, so it truncates at the first NUL byte. -/
def wc_secret_to_string (bstr0 : Option (List Nat)) (secret : Option WcSecret) :
    WcErr × Option (List Nat) :=
  match secret with
  | none => (.WC_ERROR_INVALID_ARGUMENT, bstr0)
  | some sec =>
    match sec.serial with
    | none => (.WC_ERROR_INVALID_ARGUMENT, bstr0)
    | some ser =>
      (.WC_SUCCESS, some (101 :: (wc_to_bstring sec.amount
        ++ [58, 115, 101, 99, 114, 101, 116, 58]
        ++ ser.takeWhile (fun c => c ≠ 0))))

/-- `wc_public_from_secret(secret)`: the zero-initialized `wc_public_t` on a
NULL secret or absent serial, else the secret's amount paired with the
SHA-256 of the serial bytes. -/
def wc_public_from_secret (secret : Option WcSecret) : WcPublic :=
  match secret with
  | none => ⟨0, List.replicate 32 0⟩
  | some sec =>
    match sec.serial with
    | none => ⟨0, List.replicate 32 0⟩
    | some ser => ⟨sec.amount, sha256 ser⟩

/-- `binchr(bstr, start, ":")`: the position of the first occurrence of
byte `c` at or after `start`, `none` for `BSTR_ERR`. -/
def binchr (s : List Nat) (start : Nat) (c : Nat) : Option Nat :=
  match (s.drop start).findIdx? (fun b => b = c) with
  | none => none
  | some i => some (start + i)

/-- `hexdigit_to_int`. -/
def hexdigit_to_int (c : Nat) : Nat :=
  if 48 ≤ c ∧ c ≤ 57 then c - 48
  else if 97 ≤ c ∧ c ≤ 102 then c - 97 + 10
  else if 65 ≤ c ∧ c ≤ 70 then c - 65 + 10
  else 255

/-- The hash-decoding loop of `wc_public_parse`:
`hexdigit_to_int(hi) << 4 | hexdigit_to_int(lo)` over consecutive pairs. -/
def hexPairsToBytes : List Nat → List Nat
  | a :: b :: rest =>
    ((hexdigit_to_int a <<< 4) ||| hexdigit_to_int b) :: hexPairsToBytes rest
  | _ => []

/-- `wc_secret_parse(secret, noncanonical, bstr)`: split on `':'`, require
the middle field `"secret"`, parse the amount with fresh cells, take the
serial as everything past the second `':'`; write the out-cells only on
success. -/
def wc_secret_parse (secret0 : WcSecret) (nc0 : Int) (bstr : List Nat) :
    WcErr × WcSecret × Int :=
  if bstr.isEmpty then (.WC_ERROR_INVALID_ARGUMENT, secret0, nc0)
  else
    let pos0 : Nat := if bstr.head? = some 101 then 1 else 0
    match binchr bstr pos0 58 with
    | none => (.WC_ERROR_INVALID_ARGUMENT, secret0, nc0)
    | some pos1 =>
      match binchr bstr (pos1 + 1) 58 with
      | none => (.WC_ERROR_INVALID_ARGUMENT, secret0, nc0)
      | some pos2 =>
        if (bstr.drop (pos1 + 1)).take (pos2 - pos1 - 1)
            ≠ [115, 101, 99, 114, 101, 116] then
          (.WC_ERROR_INVALID_ARGUMENT, secret0, nc0)
        else
          let r := wc_from_bstring 0 0 ((bstr.drop pos0).take (pos1 - pos0))
          if r.1 ≠ .WC_SUCCESS then (r.1, secret0, nc0)
          else
            let isNc : Bool := r.2.2 ≠ 0 || pos0 = 0
            (.WC_SUCCESS,
              ⟨r.2.1, some ((bstr.drop (pos2 + 1)).take (bstr.length - pos2 - 1))⟩,
              if isNc then 1 else 0)

/-- `wc_public_parse(pub, noncanonical, bstr)`: split on `':'`, require a
64-hex-digit hash field (uppercase digits flag noncanonical) and the middle
field `"public"`, parse the amount with fresh cells, decode the hash; write
the out-cells only on success. -/
def wc_public_parse (pub0 : WcPublic) (nc0 : Int) (bstr : List Nat) :
    WcErr × WcPublic × Int :=
  if bstr.isEmpty then (.WC_ERROR_INVALID_ARGUMENT, pub0, nc0)
  else
    let pos0 : Nat := if bstr.head? = some 101 then 1 else 0
    match binchr bstr pos0 58 with
    | none => (.WC_ERROR_INVALID_ARGUMENT, pub0, nc0)
    | some pos1 =>
      match binchr bstr (pos1 + 1) 58 with
      | none => (.WC_ERROR_INVALID_ARGUMENT, pub0, nc0)
      | some pos2 =>
        if bstr.length - pos2 ≠ 65 then (.WC_ERROR_INVALID_ARGUMENT, pub0, nc0)
        else
          let hexfield := (bstr.drop (pos2 + 1)).take 64
          if ¬ hexfield.all (fun c => hexdigit_to_int c ≤ 15) then
            (.WC_ERROR_INVALID_ARGUMENT, pub0, nc0)
          else
            let ncHex : Bool := hexfield.any (fun c => 65 ≤ c && c ≤ 70)
            if (bstr.drop (pos1 + 1)).take (pos2 - pos1 - 1)
                ≠ [112, 117, 98, 108, 105, 99] then
              (.WC_ERROR_INVALID_ARGUMENT, pub0, nc0)
            else
              let r := wc_from_bstring 0 0 ((bstr.drop pos0).take (pos1 - pos0))
              if r.1 ≠ .WC_SUCCESS then (r.1, pub0, nc0)
              else
                let isNc : Bool := ncHex || r.2.2 ≠ 0 || pos0 = 0
                (.WC_SUCCESS, ⟨r.2.1, hexPairsToBytes hexfield⟩,
                  if isNc then 1 else 0)

theorem takeWhile_ne_zero_of_not_mem (l : List Nat) (h : (0 : Nat) ∉ l) :
    l.takeWhile (fun c => c ≠ 0) = l := by
  induction l with
  | nil => rfl
  | cons a t ih =>
    rw [List.takeWhile_cons,
      if_pos (decide_eq_true (by
        intro ha
        exact h (by rw [← ha]; exact List.mem_cons_self a t))),
      ih (fun hm => h (List.mem_cons_of_mem _ hm))]

/-- **C6 (amended).**  `wc_secret_to_string` validates only the presence of
the secret and of its serial string: it fails (with invalid-argument,
leaving the output cell untouched) exactly when the secret pointer is NULL
or the serial is NULL, and otherwise — *even for a zero or negative amount
and even for an empty serial* — it succeeds and produces
`"e" ++ format(amount) ++ ":secret:" ++ serial` (the serial read as a C
string, hence up to its first NUL byte).  The original claim's
amount-positivity and serial-nonemptiness conditions are refuted by
`wc_secret_to_string_zero_empty_ok` below. -/
theorem wc_secret_to_string_spec :
    (∀ (bstr0 : Option (List Nat)) (secret : Option WcSecret),
      ((wc_secret_to_string bstr0 secret).1 = WcErr.WC_SUCCESS ↔
        ∃ sec ser, secret = some sec ∧ sec.serial = some ser) ∧
      ((wc_secret_to_string bstr0 secret).1 ≠ WcErr.WC_SUCCESS →
        (wc_secret_to_string bstr0 secret).2 = bstr0)) ∧
    (∀ (bstr0 : Option (List Nat)) (amount : Int) (serial : List Nat),
      (0 : Nat) ∉ serial →
      wc_secret_to_string bstr0 (some ⟨amount, some serial⟩)
        = (.WC_SUCCESS, some (101 :: (wc_to_bstring amount
            ++ [58, 115, 101, 99, 114, 101, 116, 58] ++ serial)))) := by
  constructor
  · intro bstr0 secret
    cases secret with
    | none =>
      exact ⟨iff_of_false (fun h => WcErr.noConfusion h)
          (by rintro ⟨sec, ser, hsec, -⟩; cases hsec),
        fun _ => rfl⟩
    | some sec =>
      cases hser : sec.serial with
      | none =>
        refine ⟨?_, ?_⟩
        · simp only [wc_secret_to_string, hser]
          exact iff_of_false (fun h => WcErr.noConfusion h)
            (by
              rintro ⟨sec', ser, hsec, hser'⟩
              injection hsec with h'
              rw [← h', hser] at hser'
              cases hser')
        · simp only [wc_secret_to_string, hser]
          intro _
          trivial
      | some ser =>
        refine ⟨?_, ?_⟩
        · simp only [wc_secret_to_string, hser]
          exact iff_of_true trivial ⟨sec, ser, rfl, hser⟩
        · simp only [wc_secret_to_string, hser]
          intro h
          exact absurd rfl h
  · intro bstr0 amount serial hnul
    simp only [wc_secret_to_string]
    rw [takeWhile_ne_zero_of_not_mem serial hnul]

/-- Witness for C6: a secret with amount `0` and serial `"abc"` — invalid
by `wc_secret_is_valid`'s rules — still stringifies successfully. -/
theorem wc_secret_to_string_spec_witness :
    wc_secret_to_string (some [55]) (some ⟨0, some [97, 98, 99]⟩)
      = (.WC_SUCCESS,
         some [101, 48, 58, 115, 101, 99, 114, 101, 116, 58, 97, 98, 99]) := by
  rw [wc_secret_to_string_spec.2 (some [55]) 0 [97, 98, 99] (by decide)]
  simp [wc_to_bstring, wc_to_bstring_nonneg, natDecDigits, WC_AMOUNT_SCALE]

/-- Counterexample to C6 as stated: a secret with amount `0` and an *empty*
serial is accepted by `wc_secret_to_string` (result `"e0:secret:"`), not
rejected with invalid-argument; likewise a negative amount (`-5` formats as
`"-0.00000005"`). -/
theorem wc_secret_to_string_zero_empty_ok :
    wc_secret_to_string none (some ⟨0, some []⟩)
      = (.WC_SUCCESS, some [101, 48, 58, 115, 101, 99, 114, 101, 116, 58]) ∧
    wc_secret_to_string none (some ⟨-5, some [97]⟩)
      = (.WC_SUCCESS, some [101, 45, 48, 46, 48, 48, 48, 48, 48, 48, 48, 53,
          58, 115, 101, 99, 114, 101, 116, 58, 97]) := by
  constructor
  · simp [wc_secret_to_string, wc_to_bstring, wc_to_bstring_nonneg,
      natDecDigits, WC_AMOUNT_SCALE]
  · simp [wc_secret_to_string, wc_to_bstring, wc_to_bstring_nonneg,
      natDecDigits, zeroPad8, stripTrailingZeros, WC_AMOUNT_SCALE]

/-- **C10.**  `wc_public_from_secret` never signals an error: it returns the
zero-initialized `wc_public_t` (amount `0`, all-zero hash) on a NULL secret
or an absent serial, and otherwise the secret's amount — with no validity
check, so also a non-positive amount — paired with the SHA-256 of the
serial bytes; concretely, serial `"abc"` with amount `-3` yields `-3` and
the digest `ba7816bf…15ad`. -/
theorem wc_public_from_secret_spec :
    wc_public_from_secret none = ⟨0, List.replicate 32 0⟩ ∧
    (∀ a : Int, wc_public_from_secret (some ⟨a, none⟩) = ⟨0, List.replicate 32 0⟩) ∧
    (∀ (a : Int) (ser : List Nat),
      wc_public_from_secret (some ⟨a, some ser⟩) = ⟨a, sha256 ser⟩) ∧
    wc_public_from_secret (some ⟨-3, some [97, 98, 99]⟩)
      = ⟨-3, [186, 120, 22, 191, 143, 1, 207, 234, 65, 65, 64, 222, 93, 174,
              34, 35, 176, 3, 97, 163, 150, 23, 122, 156, 180, 16, 255, 97,
              242, 0, 21, 173]⟩ :=
  ⟨rfl, fun _ => rfl, fun _ _ => rfl, by decide⟩

/-- **C9.**  Parse atomicity: whenever `wc_from_bstring`, `wc_secret_parse`
or `wc_public_parse` returns anything other than `WC_SUCCESS`, the
caller-visible out-cells (amount and noncanonical flag, secret, or public)
hold exactly their previous contents. -/
theorem wc_parse_atomicity :
    (∀ (amt0 nc0 : Int) (s : List Nat),
      (wc_from_bstring amt0 nc0 s).1 ≠ WcErr.WC_SUCCESS →
      (wc_from_bstring amt0 nc0 s).2 = (amt0, nc0)) ∧
    (∀ (sec0 : WcSecret) (nc0 : Int) (s : List Nat),
      (wc_secret_parse sec0 nc0 s).1 ≠ WcErr.WC_SUCCESS →
      (wc_secret_parse sec0 nc0 s).2 = (sec0, nc0)) ∧
    (∀ (pub0 : WcPublic) (nc0 : Int) (s : List Nat),
      (wc_public_parse pub0 nc0 s).1 ≠ WcErr.WC_SUCCESS →
      (wc_public_parse pub0 nc0 s).2 = (pub0, nc0)) := by
  refine ⟨?_, ?_, ?_⟩
  · intro amt0 nc0 s
    unfold wc_from_bstring
    dsimp only
    repeat' split
    all_goals first
      | (intro h; rfl)
      | (intro h; exact absurd rfl h)
  · intro sec0 nc0 s
    unfold wc_secret_parse
    dsimp only
    repeat' split
    all_goals first
      | (intro h; rfl)
      | (intro h; exact absurd rfl h)
  · intro pub0 nc0 s
    unfold wc_public_parse
    dsimp only
    repeat' split
    all_goals first
      | (intro h; rfl)
      | (intro h; exact absurd rfl h)

/-- Witness for C9: each of the three parsers applied at a concretely
rejected input, with distinctive prior cell contents that survive. -/
theorem wc_parse_atomicity_witness :
    (wc_from_bstring 3 7 [34]).2 = (3, 7) ∧
    (wc_secret_parse ⟨5, none⟩ 9 []).2 = (⟨5, none⟩, 9) ∧
    (wc_public_parse ⟨2, []⟩ 4 [58]).2 = (⟨2, []⟩, 4) :=
  ⟨wc_parse_atomicity.1 3 7 [34] (by decide),
   wc_parse_atomicity.2.1 ⟨5, none⟩ 9 [] (by decide),
   wc_parse_atomicity.2.2 ⟨2, []⟩ 4 [58] (by decide)⟩

/-! ## Serial derivation and 8-way mining (webcash.c)

`wc_init` fixes the global `webcashwalletv1_midstate`: a `sha256_ctx` that
has absorbed `tag ‖ tag` where `tag = SHA256("webcashwalletv1")` — exactly
one 64-byte block, so its state is one compression from the initial state
and its byte count is 64.  `sha256_midstate(out, s, blocks, n)` of libsha2
runs one compression of each prepared 64-byte block from state `s` and
writes each 32-byte big-endian result; it is modelled per lane by
`sha256Compress`. -/

def wcTag : List Nat :=
  sha256 [119, 101, 98, 99, 97, 115, 104, 119, 97, 108, 108, 101, 116, 118, 49]

def wc_midstate_s : List Nat := sha256StateAfter sha256H0 (wcTag ++ wcTag)

def wc_midstate_bytes : Nat := 64

/-- `hexdigits[n]` for a nibble `n` (`"0123456789abcdef"`). -/
def hexchar (n : Nat) : Nat := if n < 10 then 48 + n else 87 + n

/-- The in-place hex expansion loop of `wc_derive_serials`
(`out[2i] = hexdigits[out[i] >> 4]; out[2i+1] = hexdigits[out[i] & 0xf]`). -/
def hexlify : List Nat → List Nat
  | [] => []
  | b :: rest => hexchar (b >>> 4) :: hexchar (b &&& 15) :: hexlify rest

/-- One prepared derivation block: `root` (32 bytes, `memcpy` of 32),
`BE64(chaincode)`, `BE64(depth)`, the `0x80` padding byte, zeros, and
`BE64((midstate.bytes + 48) << 3)`. -/
def wc_derive_block (root : List Nat) (chaincode depth : Nat) : List Nat :=
  root.take 32 ++ be64 chaincode ++ be64 depth ++ (128 :: List.replicate 7 0)
    ++ be64 ((wc_midstate_bytes + 48) * 8)

/-- One derived serial: the compression of the prepared block from the tag
midstate, hex-expanded. -/
def wc_derive_one (root : List Nat) (chaincode depth : Nat) : List Nat :=
  hexlify (sha256StateBytes
    (sha256Compress wc_midstate_s (beWords (wc_derive_block root chaincode depth))))

/-- The Duff's-device batching loop of `wc_derive_serials`: a first batch of
`m = (count - 1) % 8 + 1` lanes at depths `depth … depth+m-1`, then batches
of eight, until `count` is exhausted.  `fuel ≥ count` bounds the recursion. -/
def wc_derive_batches : Nat → List Nat → Nat → Nat → Nat → List Nat
  | 0, _, _, _, _ => []
  | fuel + 1, root, chaincode, depth, count =>
    if count = 0 then []
    else
      let m := (count - 1) % 8 + 1
      ((List.range m).map (fun j => wc_derive_one root chaincode (depth + j))).flatten
        ++ wc_derive_batches fuel root chaincode (depth + m) (count - m)

/-- `wc_derive_serials(out, root, chaincode, depth, count)`: the `count*64`
bytes written to `out`. -/
def wc_derive_serials (root : List Nat) (chaincode depth count : Nat) : List Nat :=
  wc_derive_batches count root chaincode depth count

/-- `wc_derive_serial(bstr, root, chaincode, depth)`: the one-serial wrapper
(out-cell threaded; `root = none` is the NULL-root early return). -/
def wc_derive_serial (bstr0 : Option (List Nat)) (root : Option (List Nat))
    (chaincode depth : Nat) : WcErr × Option (List Nat) :=
  match root with
  | none => (.WC_ERROR_INVALID_ARGUMENT, bstr0)
  | some r => (.WC_SUCCESS, some (wc_derive_serials r chaincode depth 1))

/-- `wc_mining_8way(hashes, ctx, nonce1, nonce2, final)`: per lane `i`, one
compression from `ctx->s` of the block
`nonce1 ‖ nonce2[4i..4i+3] ‖ final ‖ 0x80 ‖ 0…0 ‖ BE64((ctx->bytes + 12) << 3)`;
the 8 × 32 output bytes in lane order. -/
def wc_mining_8way (ctx_s : List Nat) (ctx_bytes : Nat)
    (nonce1 nonce2 final : List Nat) : List Nat :=
  ((List.range 8).map (fun i =>
    sha256StateBytes (sha256Compress ctx_s (beWords
      (nonce1.take 4 ++ (nonce2.drop (4 * i)).take 4 ++ final.take 4
        ++ (128 :: List.replicate 43 0) ++ be64 ((ctx_bytes + 12) * 8)))))).flatten

/-! ### Length and shape lemmas for the SHA-256 model -/

theorem sha256Compress_length (st0 ws : List Nat) (h : st0.length = 8) :
    (sha256Compress st0 ws).length = 8 := by
  have hstep : ∀ (l : List (Nat × Nat)) (st : List Nat), st.length = 8 →
      (l.foldl (fun st kw =>
        match st with
        | [a, b, c, d, e, f, g, h] =>
          let t1 := w32 (h + bigSigma1 e + sha_ch e f g + kw.1 + kw.2)
          let t2 := w32 (bigSigma0 a + sha_maj a b c)
          [w32 (t1 + t2), a, b, c, w32 (d + t1), e, f, g]
        | st => st) st).length = 8 := by
    intro l
    induction l with
    | nil => intro st h; exact h
    | cons kw t ih =>
      intro st h
      rcases st with _ | ⟨a, st⟩; · simp at h
      rcases st with _ | ⟨b, st⟩; · simp at h
      rcases st with _ | ⟨c, st⟩; · simp at h
      rcases st with _ | ⟨d, st⟩; · simp at h
      rcases st with _ | ⟨e, st⟩; · simp at h
      rcases st with _ | ⟨f, st⟩; · simp at h
      rcases st with _ | ⟨g, st⟩; · simp at h
      rcases st with _ | ⟨h8, st⟩; · simp at h
      rcases st with _ | ⟨x, st⟩
      · exact ih _ rfl
      · simp at h
  unfold sha256Compress
  rw [List.length_map, List.length_zip, hstep _ _ h, h]
  exact Nat.min_self 8

theorem sha256StateAfter_length (st : List Nat) (bs : List Nat)
    (h : st.length = 8) : (sha256StateAfter st bs).length = 8 := by
  unfold sha256StateAfter
  generalize sha256Chunks bs = L
  induction L generalizing st with
  | nil => exact h
  | cons blk t ih => exact ih _ (sha256Compress_length _ _ h)

theorem sha256StateBytes_length (st : List Nat) :
    (sha256StateBytes st).length = 4 * st.length := by
  induction st with
  | nil => rfl
  | cons a t ih =>
    unfold sha256StateBytes at ih ⊢
    rw [List.map_cons, List.flatten_cons, List.length_append, ih,
      List.length_cons, show (be32 a).length = 4 from rfl]
    omega

theorem hexlify_length (bs : List Nat) : (hexlify bs).length = 2 * bs.length := by
  induction bs with
  | nil => rfl
  | cons b rest ih =>
    unfold hexlify
    rw [List.length_cons, List.length_cons, ih, List.length_cons]
    omega

theorem wc_derive_one_length (root : List Nat) (chaincode depth : Nat) :
    (wc_derive_one root chaincode depth).length = 64 := by
  unfold wc_derive_one
  rw [hexlify_length, sha256StateBytes_length,
    sha256Compress_length _ _ (by decide)]

theorem chunks64F_nil (f : Nat) : chunks64F f [] = [] := by
  cases f <;> rfl

theorem chunks64F_fuel (f1 : Nat) : ∀ (f2 : Nat) (bs : List Nat),
    bs.length ≤ f1 → bs.length ≤ f2 → chunks64F f1 bs = chunks64F f2 bs := by
  induction f1 with
  | zero =>
    intro f2 bs h1 _
    have hbs : bs = [] := List.eq_nil_of_length_eq_zero (by omega)
    subst hbs
    rw [chunks64F_nil, chunks64F_nil]
  | succ f1 ih =>
    intro f2 bs h1 h2
    cases bs with
    | nil => rw [chunks64F_nil, chunks64F_nil]
    | cons b t =>
      cases f2 with
      | zero => simp at h2
      | succ f2 =>
        unfold chunks64F
        rw [if_neg (by simp), if_neg (by simp)]
        congr 1
        apply ih f2
        · rw [List.length_drop]
          simp only [List.length_cons] at h1 ⊢
          omega
        · rw [List.length_drop]
          simp only [List.length_cons] at h2 ⊢
          omega

theorem chunks64F_step (f : Nat) (bs : List Nat) (hne : bs ≠ []) :
    chunks64F (f + 1) bs = bs.take 64 :: chunks64F f (bs.drop 64) := by
  conv_lhs => unfold chunks64F
  rw [if_neg (by simpa [List.isEmpty_iff] using hne)]

theorem sha256Chunks_cons (bs : List Nat) (hne : bs ≠ []) :
    sha256Chunks bs = bs.take 64 :: sha256Chunks (bs.drop 64) := by
  unfold sha256Chunks
  cases hL : bs.length with
  | zero => exact absurd (List.eq_nil_of_length_eq_zero hL) hne
  | succ L =>
    rw [chunks64F_step L bs hne]
    congr 1
    apply chunks64F_fuel
    · rw [List.length_drop, hL]
      omega
    · exact Nat.le_refl _

theorem sha256Chunks_single (B : List Nat) (hne : B ≠ []) (hle : B.length ≤ 64) :
    sha256Chunks B = [B] := by
  rw [sha256Chunks_cons B hne, List.take_of_length_le hle,
    List.drop_eq_nil_of_le hle]
  rfl

theorem sha256Chunks_append_block : ∀ (k : Nat) (m B : List Nat),
    m.length = 64 * k → B ≠ [] → B.length ≤ 64 →
    sha256Chunks (m ++ B) = sha256Chunks m ++ [B] := by
  intro k
  induction k with
  | zero =>
    intro m B hm hne hle
    have hmnil : m = [] := List.eq_nil_of_length_eq_zero (by omega)
    subst hmnil
    rw [List.nil_append, sha256Chunks_single B hne hle]
    rfl
  | succ k ih =>
    intro m B hm hne hle
    have hm64 : 64 ≤ m.length := by omega
    have hmne : m ≠ [] := by
      intro h
      rw [h] at hm64
      simp at hm64
    rw [sha256Chunks_cons (m ++ B) (fun h => hmne (List.append_eq_nil.1 h).1)]
    rw [List.take_append_eq_append_take, List.drop_append_eq_append_drop]
    rw [show 64 - m.length = 0 from by omega, List.take_zero, List.drop_zero,
      List.append_nil]
    rw [ih (m.drop 64) B (by rw [List.length_drop]; omega) hne hle]
    rw [sha256Chunks_cons m hmne]
    rfl

theorem sha256StateAfter_append_block (k : Nat) (st m B : List Nat)
    (hm : m.length = 64 * k) (hne : B ≠ []) (hle : B.length ≤ 64) :
    sha256StateAfter st (m ++ B)
      = sha256Compress (sha256StateAfter st m) (beWords B) := by
  unfold sha256StateAfter
  rw [sha256Chunks_append_block k m B hm hne hle, List.foldl_append]
  rfl

theorem flatten_segment : ∀ (L : List (List Nat)) (i : Nat),
    (∀ l ∈ L, l.length = 32) → i < L.length →
    (L.flatten.drop (32 * i)).take 32 = (L[i]?).getD [] := by
  intro L
  induction L with
  | nil =>
    intro i _ hi
    simp at hi
  | cons a t ih =>
    intro i hall hi
    have ha := hall a (List.mem_cons_self _ _)
    cases i with
    | zero =>
      rw [Nat.mul_zero, List.drop_zero, List.flatten_cons,
        List.take_append_eq_append_take, List.take_of_length_le (by omega),
        show 32 - a.length = 0 from by omega, List.take_zero, List.append_nil]
      rw [List.getElem?_cons_zero]
      rfl
    | succ i =>
      rw [List.flatten_cons, List.drop_append_eq_append_drop,
        List.drop_eq_nil_of_le (by omega), List.nil_append,
        show 32 * (i + 1) - a.length = 32 * i from by omega]
      rw [ih i (fun l hl => hall l (List.mem_cons_of_mem _ hl)) (by
        simp only [List.length_cons] at hi
        omega)]
      rw [List.getElem?_cons_succ]

theorem flatten_map_segment (n i : Nat) (g : Nat → List Nat)
    (hg : ∀ j, (g j).length = 32) (hi : i < n) :
    (((List.range n).map g).flatten.drop (32 * i)).take 32 = g i := by
  rw [flatten_segment _ i
    (by
      intro l hl
      obtain ⟨j, -, rfl⟩ := List.mem_map.1 hl
      exact hg j)
    (by simpa using hi)]
  rw [List.getElem?_map, List.getElem?_range hi]
  rfl

/-! ### Batch refinement for `wc_derive_serials` -/

theorem flatten_range_add (a b : Nat) (f : Nat → List Nat) :
    ((List.range (a + b)).map f).flatten
      = ((List.range a).map f).flatten
        ++ ((List.range b).map (fun i => f (a + i))).flatten := by
  rw [List.range_add, List.map_append, List.flatten_append, List.map_map]
  rfl

theorem wc_derive_batches_spec (fuel : Nat) : ∀ (count : Nat), count ≤ fuel →
    ∀ (root : List Nat) (chaincode depth : Nat),
    wc_derive_batches fuel root chaincode depth count
      = ((List.range count).map
          (fun i => wc_derive_one root chaincode (depth + i))).flatten := by
  induction fuel with
  | zero =>
    intro count hc root chaincode depth
    have h0 : count = 0 := by omega
    subst h0
    rfl
  | succ fuel ih =>
    intro count hc root chaincode depth
    unfold wc_derive_batches
    by_cases hc0 : count = 0
    · subst hc0
      rw [if_pos rfl]
      rfl
    · rw [if_neg hc0]
      dsimp only
      have hm8 : (count - 1) % 8 ≤ count - 1 := Nat.mod_le _ _
      have hm1 : 1 ≤ (count - 1) % 8 + 1 := by omega
      have hmc : (count - 1) % 8 + 1 ≤ count := by omega
      rw [ih (count - ((count - 1) % 8 + 1)) (by omega) root chaincode
          (depth + ((count - 1) % 8 + 1))]
      have hcm : count = ((count - 1) % 8 + 1) + (count - ((count - 1) % 8 + 1)) := by
        omega
      conv_rhs => rw [hcm, flatten_range_add]
      refine congrArg₂ HAppend.hAppend rfl
        (congrArg List.flatten (List.map_congr_left ?_))
      intro i _
      congr 1
      omega

theorem flatten_length_64 : ∀ (L : List (List Nat)),
    (∀ l ∈ L, l.length = 64) → L.flatten.length = 64 * L.length := by
  intro L
  induction L with
  | nil => intro _; rfl
  | cons a t ih =>
    intro hall
    rw [List.flatten_cons, List.length_append, hall a (List.mem_cons_self _ _),
      ih (fun l hl => hall l (List.mem_cons_of_mem _ hl)), List.length_cons]
    omega

theorem hexchar_range (n : Nat) (h : n ≤ 15) :
    (48 ≤ hexchar n ∧ hexchar n ≤ 57) ∨ (97 ≤ hexchar n ∧ hexchar n ≤ 102) := by
  unfold hexchar
  by_cases h10 : n < 10
  · rw [if_pos h10]
    left
    omega
  · rw [if_neg h10]
    right
    omega

theorem hexlify_mem (bs : List Nat) (hb : ∀ b ∈ bs, b < 256) :
    ∀ c ∈ hexlify bs, (48 ≤ c ∧ c ≤ 57) ∨ (97 ≤ c ∧ c ≤ 102) := by
  induction bs with
  | nil => intro c hc; cases hc
  | cons b rest ih =>
    intro c hc
    unfold hexlify at hc
    have hb0 := hb b (List.mem_cons_self _ _)
    rcases List.mem_cons.1 hc with hc | hc
    · subst hc
      apply hexchar_range
      rw [Nat.shiftRight_eq_div_pow]
      omega
    · rcases List.mem_cons.1 hc with hc | hc
      · subst hc
        apply hexchar_range
        exact Nat.le_of_lt_succ (Nat.lt_succ_of_le (Nat.and_le_right))
      · exact ih (fun x hx => hb x (List.mem_cons_of_mem _ hx)) c hc

theorem be32_mem (n : Nat) : ∀ b ∈ be32 n, b < 256 := by
  intro b hb
  unfold be32 at hb
  simp only [List.mem_cons, List.not_mem_nil, or_false] at hb
  rcases hb with h | h | h | h <;> subst h <;> exact Nat.mod_lt _ (by omega)

theorem sha256StateBytes_mem (st : List Nat) :
    ∀ b ∈ sha256StateBytes st, b < 256 := by
  intro b hb
  unfold sha256StateBytes at hb
  obtain ⟨l, hl, hbl⟩ := List.mem_flatten.1 hb
  obtain ⟨w, -, rfl⟩ := List.mem_map.1 hl
  exact be32_mem w b hbl

set_option maxRecDepth 8192 in
/-- The repository's derivation test vector: root `407c95…1d0f`, chaincode
`1` (PAY), depths `0` and `1` give the first two rows of the expected
hex buffer.  This ties `wcTag`, `wc_midstate_s` and `wc_derive_one` to the
code's observed behaviour. -/
theorem wc_derive_serials_test_vector :
    wc_derive_serials
      [64, 124, 149, 11, 61, 230, 0, 100, 215, 255, 116, 75,
       155, 71, 67, 184, 222, 88, 233, 67, 231, 197, 55, 223,
       61, 58, 138, 41, 163, 46, 29, 15] 1 0 2
      = [98, 101, 56, 51, 53, 56, 57, 55, 101, 56, 53, 51,
         56, 49, 57, 48, 53, 54, 51, 52, 102, 56, 98, 99,
         99, 53, 100, 98, 49, 101, 97, 97, 51, 56, 52, 100,
         51, 54, 51, 99, 51, 50, 54, 51, 51, 53, 102, 52,
         101, 57, 100, 56, 57, 100, 49, 49, 57, 101, 55, 56,
         98, 48, 99, 53, 49, 102, 56, 101, 50, 50, 52, 99,
         54, 53, 49, 49, 53, 99, 101, 56, 101, 97, 102, 57,
         56, 98, 52, 55, 52, 53, 55, 98, 48, 101, 53, 100,
         97, 48, 102, 99, 102, 99, 99, 52, 56, 48, 102, 48,
         98, 51, 97, 97, 102, 99, 53, 49, 54, 100, 53, 54,
         55, 55, 101, 98, 50, 52, 99, 49] := by
  decide


/-- **C2.**  `wc_derive_serials` is, byte for byte, the concatenation of the
single derivations at depths `depth, depth+1, …, depth+count-1` in
ascending order, irrespective of the batching into groups of up to eight;
a count of zero writes nothing; `wc_derive_serial` wraps the single
derivation and succeeds for every non-NULL root; the output is exactly
`64 * count` bytes of lowercase hex. -/
theorem wc_derive_serials_concat :
    (∀ (root : List Nat) (chaincode depth count : Nat),
      wc_derive_serials root chaincode depth count
        = ((List.range count).map
            (fun i => wc_derive_one root chaincode (depth + i))).flatten) ∧
    (∀ (root : List Nat) (chaincode depth : Nat),
      wc_derive_serials root chaincode depth 0 = []) ∧
    (∀ (bstr0 : Option (List Nat)) (root : List Nat) (chaincode depth : Nat),
      wc_derive_serial bstr0 (some root) chaincode depth
        = (.WC_SUCCESS, some (wc_derive_one root chaincode depth))) ∧
    (∀ (root : List Nat) (chaincode depth count : Nat),
      (wc_derive_serials root chaincode depth count).length = 64 * count) ∧
    (∀ (root : List Nat) (chaincode depth count : Nat),
      ∀ c ∈ wc_derive_serials root chaincode depth count,
        (48 ≤ c ∧ c ≤ 57) ∨ (97 ≤ c ∧ c ≤ 102)) := by
  have hmain : ∀ (root : List Nat) (chaincode depth count : Nat),
      wc_derive_serials root chaincode depth count
        = ((List.range count).map
            (fun i => wc_derive_one root chaincode (depth + i))).flatten :=
    fun root chaincode depth count =>
      wc_derive_batches_spec count count (Nat.le_refl _) root chaincode depth
  refine ⟨hmain, ?_, ?_, ?_, ?_⟩
  · intro root chaincode depth
    rfl
  · intro bstr0 root chaincode depth
    unfold wc_derive_serial
    dsimp only
    rw [hmain root chaincode depth 1]
    rw [show List.range 1 = [0] from rfl]
    rw [List.map_cons, List.map_nil, List.flatten_cons, List.flatten_nil,
      List.append_nil, Nat.add_zero]
  · intro root chaincode depth count
    rw [hmain root chaincode depth count]
    rw [flatten_length_64 _ (by
      intro l hl
      obtain ⟨i, -, rfl⟩ := List.mem_map.1 hl
      exact wc_derive_one_length root chaincode (depth + i))]
    rw [List.length_map, List.length_range]
  · intro root chaincode depth count c hc
    rw [hmain root chaincode depth count] at hc
    obtain ⟨l, hl, hcl⟩ := List.mem_flatten.1 hc
    obtain ⟨i, -, rfl⟩ := List.mem_map.1 hl
    unfold wc_derive_one at hcl
    exact hexlify_mem _ (sha256StateBytes_mem _) c hcl

set_option maxRecDepth 8192 in
/-- Witness for C2: the lowercase-hex conjunct applied at the repository's
test root (chaincode 1, depth 0, one serial) and the byte `98` (`'b'`), the
first byte of that serial. -/
theorem wc_derive_serials_concat_witness :
    (48 ≤ 98 ∧ 98 ≤ 57) ∨ (97 ≤ 98 ∧ 98 ≤ 102) :=
  wc_derive_serials_concat.2.2.2.2
    [64, 124, 149, 11, 61, 230, 0, 100, 215, 255, 116, 75, 155, 71, 67, 184,
     222, 88, 233, 67, 231, 197, 55, 223, 61, 58, 138, 41, 163, 46, 29, 15]
    1 0 1 98 (by decide)

/-! ### Correctness of `wc_mining_8way` on block-aligned contexts -/

/-- **C3 (amended).**  For a SHA-256 context that sits exactly on a
compression-block boundary — absorbed byte count divisible by 64, so its
state is the compression of the absorbed prefix and its buffer is empty —
every lane `i < 8` of `wc_mining_8way` is the scalar SHA-256 digest of the
absorbed prefix followed by the 12 bytes `nonce1 ‖ nonce2[4i..4i+3] ‖ final`.
(The claim's weaker hypothesis `(bytes + 12) % 64 == 0` is refuted by
`wc_mining_8way_misaligned_counterexample` below: a context with 52
buffered, uncompressed bytes satisfies it, yet the lanes ignore the buffer
and differ from the scalar digest.) -/
theorem wc_mining_8way_lanes :
    ∀ (m nonce1 nonce2 final : List Nat) (i : Nat),
      m.length % 64 = 0 →
      nonce1.length = 4 → nonce2.length = 32 → final.length = 4 → i < 8 →
      ((wc_mining_8way (sha256StateAfter sha256H0 m) m.length
          nonce1 nonce2 final).drop (32 * i)).take 32
        = sha256 (m ++ nonce1 ++ (nonce2.drop (4 * i)).take 4 ++ final) := by
  intro m n1 n2 fin i hm h1 h2 h4 hi
  obtain ⟨k, hk⟩ : ∃ k, m.length = 64 * k := ⟨m.length / 64, by omega⟩
  have hsl : ((n2.drop (4 * i)).take 4).length = 4 := by
    rw [List.length_take, List.length_drop, h2]
    omega
  have hstlen : (sha256StateAfter sha256H0 m).length = 8 :=
    sha256StateAfter_length _ _ rfl
  have hbe : ∀ x : Nat, (be64 x).length = 8 := fun x => rfl
  unfold wc_mining_8way
  rw [flatten_map_segment 8 i _ (fun j => by
    rw [sha256StateBytes_length, sha256Compress_length _ _ hstlen]) hi]
  have e1 : n1.take 4 = n1 := by rw [← h1]; exact List.take_length n1
  have e4 : fin.take 4 = fin := by rw [← h4]; exact List.take_length fin
  rw [e1, e4]
  unfold sha256
  have hMlen : (m ++ n1 ++ (n2.drop (4 * i)).take 4 ++ fin).length
      = m.length + 12 := by
    rw [List.length_append, List.length_append, List.length_append, h1, hsl, h4]
  have hz : (119 - (m.length + 12) % 64) % 64 = 43 := by omega
  have hpad : sha256pad (m ++ n1 ++ (n2.drop (4 * i)).take 4 ++ fin)
      = (m ++ n1 ++ (n2.drop (4 * i)).take 4 ++ fin)
        ++ (128 :: (List.replicate 43 0 ++ be64 (8 * (m.length + 12)))) := by
    unfold sha256pad
    rw [hMlen, hz]
  rw [hpad]
  rw [show (m ++ n1 ++ (n2.drop (4 * i)).take 4 ++ fin)
        ++ (128 :: (List.replicate 43 0 ++ be64 (8 * (m.length + 12))))
      = m ++ (n1 ++ ((n2.drop (4 * i)).take 4 ++ (fin
        ++ (128 :: (List.replicate 43 0 ++ be64 (8 * (m.length + 12))))))) from by
    simp only [List.append_assoc]]
  rw [sha256StateAfter_append_block k sha256H0 m _ hk
    (by simp)
    (by
      simp only [List.length_append, List.length_cons, List.length_replicate,
        h1, hsl, h4, hbe]
      omega)]
  apply congrArg sha256StateBytes
  apply congrArg (sha256Compress (sha256StateAfter sha256H0 m))
  apply congrArg beWords
  rw [Nat.mul_comm (m.length + 12) 8]
  simp only [List.append_assoc, List.cons_append]

/-- Witness for C3: the first lane over the empty (block-aligned) prefix
with the repository's test nonces (`"abcd…"`, final `"fQ=="`). -/
theorem wc_mining_8way_lanes_witness :
    ((wc_mining_8way (sha256StateAfter sha256H0 []) 0
        [97, 98, 99, 100]
        [97, 98, 99, 100, 101, 102, 103, 104, 105, 106, 107, 108, 109, 110,
         111, 112, 113, 114, 115, 116, 117, 118, 119, 120, 121, 122, 48, 49,
         50, 51, 52, 53]
        [102, 81, 61, 61]).drop (32 * 0)).take 32
      = sha256 ([] ++ [97, 98, 99, 100]
          ++ (([97, 98, 99, 100, 101, 102, 103, 104, 105, 106, 107, 108, 109,
               110, 111, 112, 113, 114, 115, 116, 117, 118, 119, 120, 121,
               122, 48, 49, 50, 51, 52, 53].drop (4 * 0)).take 4)
          ++ [102, 81, 61, 61]) :=
  wc_mining_8way_lanes [] [97, 98, 99, 100]
    [97, 98, 99, 100, 101, 102, 103, 104, 105, 106, 107, 108, 109, 110, 111,
     112, 113, 114, 115, 116, 117, 118, 119, 120, 121, 122, 48, 49, 50, 51,
     52, 53]
    [102, 81, 61, 61] 0 rfl rfl rfl rfl (by decide)

set_option maxRecDepth 8192 in
/-- Counterexample to C3 as stated: a context holding 52 buffered bytes
(state still `SHA256_INIT`, `bytes = 52`) satisfies the claim's
`(bytes + 12) % 64 == 0`, yet lane 0 of `wc_mining_8way` — which uses only
`ctx->s` and `ctx->bytes` and ignores the buffered 52 bytes — differs from
the scalar SHA-256 of the absorbed prefix followed by the 12 lane bytes. -/
theorem wc_mining_8way_misaligned_counterexample :
    (52 + 12) % 64 = 0 ∧
    ((wc_mining_8way sha256H0 52
        [97, 98, 99, 100]
        [97, 98, 99, 100, 101, 102, 103, 104, 105, 106, 107, 108, 109, 110,
         111, 112, 113, 114, 115, 116, 117, 118, 119, 120, 121, 122, 48, 49,
         50, 51, 52, 53]
        [102, 81, 61, 61]).drop (32 * 0)).take 32
      ≠ sha256 (List.replicate 52 0 ++ [97, 98, 99, 100]
          ++ (([97, 98, 99, 100, 101, 102, 103, 104, 105, 106, 107, 108, 109,
               110, 111, 112, 113, 114, 115, 116, 117, 118, 119, 120, 121,
               122, 48, 49, 50, 51, 52, 53].drop (4 * 0)).take 4)
          ++ [102, 81, 61, 61]) :=
  ⟨by decide, by decide⟩

set_option maxRecDepth 8192 in
/-- The repository's 8-way mining test vector: with `SHA256_INIT` and the
nonces string `"abcdefghijklmnopqrstuvwxyz012345"` for all three inputs,
lane 0 starts `88 7f` and lane 7 ends `86 50`. -/
theorem wc_mining_8way_test_vector :
    (wc_mining_8way sha256H0 0
        [97, 98, 99, 100, 101, 102, 103, 104, 105, 106, 107, 108, 109, 110,
         111, 112, 113, 114, 115, 116, 117, 118, 119, 120, 121, 122, 48, 49,
         50, 51, 52, 53]
        [97, 98, 99, 100, 101, 102, 103, 104, 105, 106, 107, 108, 109, 110,
         111, 112, 113, 114, 115, 116, 117, 118, 119, 120, 121, 122, 48, 49,
         50, 51, 52, 53]
        [97, 98, 99, 100, 101, 102, 103, 104, 105, 106, 107, 108, 109, 110,
         111, 112, 113, 114, 115, 116, 117, 118, 119, 120, 121, 122, 48, 49,
         50, 51, 52, 53]).take 2 = [136, 127] ∧
    ((wc_mining_8way sha256H0 0
        [97, 98, 99, 100, 101, 102, 103, 104, 105, 106, 107, 108, 109, 110,
         111, 112, 113, 114, 115, 116, 117, 118, 119, 120, 121, 122, 48, 49,
         50, 51, 52, 53]
        [97, 98, 99, 100, 101, 102, 103, 104, 105, 106, 107, 108, 109, 110,
         111, 112, 113, 114, 115, 116, 117, 118, 119, 120, 121, 122, 48, 49,
         50, 51, 52, 53]
        [97, 98, 99, 100, 101, 102, 103, 104, 105, 106, 107, 108, 109, 110,
         111, 112, 113, 114, 115, 116, 117, 118, 119, 120, 121, 122, 48, 49,
         50, 51, 52, 53]).drop (7 * 32 + 30)).take 2 = [134, 80] :=
  ⟨by decide, by decide⟩

/-! ## Wallet lifecycle (webcash.c)

Handles (`wc_ui_handle_t`, `wc_server_handle_t`, `wc_storage_handle_t`) are
opaque pointers; a released object's callbacks return `void`, so the three
release functions can only fail on a NULL argument.  `Option Unit` models
the pointer (`none` = NULL). -/

def wc_ui_shutdown (ui : Option Unit) : WcErr :=
  match ui with
  | none => .WC_ERROR_INVALID_ARGUMENT
  | some _ => .WC_SUCCESS

def wc_server_disconnect (c : Option Unit) : WcErr :=
  match c with
  | none => .WC_ERROR_INVALID_ARGUMENT
  | some _ => .WC_SUCCESS

def wc_storage_close (w : Option Unit) : WcErr :=
  match w with
  | none => .WC_ERROR_INVALID_ARGUMENT
  | some _ => .WC_SUCCESS

structure WcWalletObj where
  storage : Option Unit
  server : Option Unit
  ui : Option Unit
  terms : Option (List Nat)
  accepted : Int
deriving DecidableEq, Repr

/-- `wc_wallet_release(wallet)`.  The second component records which
sub-releases were actually invoked, in order (`0` = `wc_ui_shutdown`,
`1` = `wc_server_disconnect`, `2` = `wc_storage_close`).  Each guarded step
is the C statement `e = e || wc_sub_release(handle);`: when `e` is already
nonzero the `||` short-circuits and the call is skipped, and a failing call
stores the truth value `1`, not the callee's error code. -/
def wc_wallet_release (wallet : Option WcWalletObj) : WcErr × List Nat :=
  match wallet with
  | none => (.WC_ERROR_INVALID_ARGUMENT, [])
  | some w =>
    let e0 : Int := 0
    let s1 : Int × List Nat :=
      match w.ui with
      | none => (e0, [])
      | some u =>
        if e0 ≠ 0 then (e0, [])
        else ((if wc_ui_shutdown (some u) ≠ .WC_SUCCESS then 1 else 0), [0])
    let s2 : Int × List Nat :=
      match w.server with
      | none => (s1.1, [])
      | some s =>
        if s1.1 ≠ 0 then (s1.1, [])
        else ((if wc_server_disconnect (some s) ≠ .WC_SUCCESS then 1 else 0), [1])
    let s3 : Int × List Nat :=
      match w.storage with
      | none => (s2.1, [])
      | some s =>
        if s2.1 ≠ 0 then (s2.1, [])
        else ((if wc_storage_close (some s) ≠ .WC_SUCCESS then 1 else 0), [2])
    ((if s3.1 = 0 then .WC_SUCCESS else .WC_ERROR_INVALID_ARGUMENT),
      s1.2 ++ s2.2 ++ s3.2)

/-- The error-accumulation pattern of `wc_wallet_release` in isolation,
abstracted over the sub-release results `rs` (as C `int` error codes): each
step is `e = e || call();` guarded by a non-NULL handle.  The first
component records which calls were made, the second the final `e`. -/
def wc_release_chain : Int → List Int → List Bool × Int
  | e, [] => ([], e)
  | e, r :: rest =>
    if e ≠ 0 then
      let p := wc_release_chain e rest
      (false :: p.1, p.2)
    else
      let p := wc_release_chain (if r ≠ 0 then 1 else 0) rest
      (true :: p.1, p.2)

/-- **C7 (amended).**  `wc_wallet_release` invokes the sub-releases in the
order UI, server, storage (the reverse of construction order) and — because
`wc_ui_shutdown`, `wc_server_disconnect` and `wc_storage_close` return
`WC_SUCCESS` for every non-NULL handle — for a configured wallet all three
are attempted and the call returns `WC_SUCCESS`.  The claim's error
behaviour is wrong about the code's `e = e || release()` pattern, isolated
in `wc_release_chain`: a latched nonzero `e` short-circuits the `||`, so
later releases would be *skipped*, and a failing release stores the truth
value `1` (`WC_ERROR_INVALID_ARGUMENT`), not the first error code
(`wc_wallet_release_counterexample`). -/
theorem wc_wallet_release_spec :
    (∀ w : WcWalletObj, w.ui ≠ none → w.server ≠ none → w.storage ≠ none →
      wc_wallet_release (some w) = (.WC_SUCCESS, [0, 1, 2])) ∧
    wc_wallet_release none = (.WC_ERROR_INVALID_ARGUMENT, []) ∧
    (∀ u : Option Unit, u ≠ none → wc_ui_shutdown u = .WC_SUCCESS ∧
      wc_server_disconnect u = .WC_SUCCESS ∧ wc_storage_close u = .WC_SUCCESS) ∧
    (∀ rs : List Int, (∀ r ∈ rs, r = 0) →
      wc_release_chain 0 rs = (List.replicate rs.length true, 0)) ∧
    (∀ (e : Int) (rs : List Int), e ≠ 0 →
      wc_release_chain e rs = (List.replicate rs.length false, e)) := by
  refine ⟨?_, rfl, ?_, ?_, ?_⟩
  · intro w hui hsrv hsto
    obtain ⟨u, hu⟩ := Option.ne_none_iff_exists'.1 hui
    obtain ⟨s, hs⟩ := Option.ne_none_iff_exists'.1 hsrv
    obtain ⟨t, ht⟩ := Option.ne_none_iff_exists'.1 hsto
    unfold wc_wallet_release
    dsimp only
    rw [hu, hs, ht]
    rfl
  · intro u hu
    obtain ⟨v, hv⟩ := Option.ne_none_iff_exists'.1 hu
    subst hv
    exact ⟨rfl, rfl, rfl⟩
  · intro rs hall
    induction rs with
    | nil => rfl
    | cons r rest ih =>
      unfold wc_release_chain
      rw [if_neg (by simp)]
      rw [if_neg (by
        simp only [ne_eq, Decidable.not_not]
        exact hall r (List.mem_cons_self _ _))]
      rw [ih (fun x hx => hall x (List.mem_cons_of_mem _ hx))]
      rfl
  · intro e rs he
    induction rs with
    | nil => rfl
    | cons r rest ih =>
      unfold wc_release_chain
      rw [if_pos he, ih]
      rfl

/-- Witness for C7: a fully configured wallet releases UI, server and
storage, in that order, successfully; all sub-releases succeed; an
all-success chain attempts everything; a latched error skips everything. -/
theorem wc_wallet_release_spec_witness :
    wc_wallet_release (some ⟨some (), some (), some (), none, 0⟩)
      = (.WC_SUCCESS, [0, 1, 2]) ∧
    wc_release_chain 0 [0, 0, 0] = ([true, true, true], 0) ∧
    wc_release_chain 7 [0, 0] = ([false, false], 7) :=
  ⟨wc_wallet_release_spec.1 ⟨some (), some (), some (), none, 0⟩
      (by decide) (by decide) (by decide),
   wc_wallet_release_spec.2.2.2.1 [0, 0, 0] (by decide),
   wc_wallet_release_spec.2.2.2.2 7 [0, 0] (by decide)⟩

/-- Counterexample to C7 as stated: if the first sub-release failed (result
`4`, say — `WC_ERROR_LOG_OPEN_FAILED`), the `e = e || release()` chain
records `([true, false, false], 1)`: the two later releases are *not*
attempted and the returned value is `1`, not the first error `4`. -/
theorem wc_wallet_release_counterexample :
    wc_release_chain 0 [4, 0, 0] = ([true, false, false], 1) ∧
    wc_release_chain 0 [4, 0, 0] ≠ ([true, true, true], 4) :=
  ⟨by decide, by decide⟩

/-! ## `wc_wallet_terms_of_service` (webcash.c)

The wallet's collaborators act through caller-supplied callbacks; their
outcomes are modelled as an oracle record `WcTosEnv`.  `struct tm` values
are opaque and modelled as `Int`; `gmtime_r` failure and the `time(NULL)`
value are oracle fields.  Out-pointers are threaded cells wrapped in
`Option` (`none` = the caller passed NULL, so the write-back is skipped). -/

structure WcTosEnv where
  /-- `wc_server_get_terms(wallet->server, &wallet->terms)`: the returned
  error and the cell contents it leaves (`(WC_SUCCESS, none)` is the
  misbehaving-server case the code maps to `WC_ERROR_UNKNOWN`). -/
  get_terms : WcErr × Option (List Nat)
  /-- `wc_storage_are_terms_accepted(storage, &accepted, &tm, terms)`:
  an error, or the `(accepted, tm)` pair written. -/
  are_accepted : Except WcErr (Int × Int)
  /-- `wc_ui_show_terms(ui, &accepted, terms)`: an error, or the `accepted`
  value written. -/
  show_terms : Except WcErr Int
  /-- `wc_storage_accept_terms(storage, terms, &tm)`: the persistence
  result. -/
  accept_terms : WcErr
  /-- Whether `gmtime_r(&now, &wallet->terms_tm)` succeeds. -/
  gmtime_ok : Bool
  /-- The broken-down `time(NULL)` value `gmtime_r` stores on success. -/
  now_tm : Int

structure WcWalletTos where
  terms : Option (List Nat)
  accepted : Int
  terms_tm : Int
deriving DecidableEq, Repr

/-- `wc_wallet_terms_of_service(wallet, terms, accepted, when)`: the error
code, the wallet state after the call, and the three out-cells (`terms` is
a cell holding a possibly-NULL bstring).  The persistence call
`wc_storage_accept_terms` is made and its result discarded, exactly as in
the source. -/
def wc_wallet_terms_of_service (env : WcTosEnv) (wallet : Option WcWalletTos)
    (terms0 : Option (Option (List Nat))) (acc0 : Option Int)
    (when0 : Option Int) :
    WcErr × Option WcWalletTos × Option (Option (List Nat)) × Option Int
      × Option Int :=
  match wallet with
  | none => (.WC_ERROR_INVALID_ARGUMENT, none, terms0, acc0, when0)
  | some w0 =>
    -- fetch the terms from the server when not cached
    let fetched : WcErr × WcWalletTos :=
      match w0.terms with
      | some _ => (.WC_SUCCESS, w0)
      | none =>
        if env.get_terms.1 ≠ .WC_SUCCESS then (env.get_terms.1, w0)
        else
          match env.get_terms.2 with
          | none => (.WC_ERROR_UNKNOWN, w0)
          | some ts =>
            (.WC_SUCCESS, { w0 with terms := some ts, accepted := 0, terms_tm := 0 })
    if fetched.1 ≠ .WC_SUCCESS then (fetched.1, some fetched.2, terms0, acc0, when0)
    else
      -- consult the storage acceptance cache when not already accepted
      let queried : WcErr × WcWalletTos :=
        if fetched.2.accepted ≠ 0 then (.WC_SUCCESS, fetched.2)
        else
          match env.are_accepted with
          | .error e => (e, fetched.2)
          | .ok p =>
            (.WC_SUCCESS, { fetched.2 with accepted := p.1, terms_tm := p.2 })
      if queried.1 ≠ .WC_SUCCESS then (queried.1, some queried.2, terms0, acc0, when0)
      else
        -- show the terms when still not accepted; cache an acceptance
        let shown : WcErr × WcWalletTos :=
          if queried.2.accepted ≠ 0 then (.WC_SUCCESS, queried.2)
          else
            match env.show_terms with
            | .error e => (e, queried.2)
            | .ok a =>
              if a ≠ 0 then
                if env.gmtime_ok = false then
                  (.WC_ERROR_OVERFLOW, { queried.2 with accepted := a })
                else
                  -- the persistence result is dropped on the floor
                  let _e4 : WcErr := env.accept_terms
                  (.WC_SUCCESS,
                   { queried.2 with accepted := a, terms_tm := env.now_tm })
              else (.WC_SUCCESS, { queried.2 with accepted := a })
        if shown.1 ≠ .WC_SUCCESS then (shown.1, some shown.2, terms0, acc0, when0)
        else
          -- write-back block
          let accOut : Option Int :=
            match acc0 with
            | none => none
            | some _ => some shown.2.accepted
          let whenOut : Option Int :=
            match when0 with
            | none => none
            | some old =>
              if shown.2.accepted ≠ 0 then some shown.2.terms_tm else some old
          match terms0 with
          | none => (.WC_SUCCESS, some shown.2, none, accOut, whenOut)
          | some _ =>
            match shown.2.terms with
            | none => (.WC_ERROR_OUT_OF_MEMORY, some shown.2, some none, acc0, when0)
            | some ts => (.WC_SUCCESS, some shown.2, some (some ts), accOut, whenOut)

/-- **C8.**  In `wc_wallet_terms_of_service`, when the server fetch, the
storage acceptance query and the UI prompt all succeed and the user accepts
(`accepted = 1`), the call returns `WC_SUCCESS` with `accepted = 1` for
*every* outcome of the `wc_storage_accept_terms` persistence call — the
oracle field `accept_terms` is unconstrained in the first conjunct and, by
the second, never influences the result at all; by the remaining conjuncts
the fetch, query, prompt and `gmtime_r` failures *are* each propagated to
the caller, so the persistence failure is the only error not propagated. -/
theorem wc_wallet_terms_of_service_spec :
    (∀ (env : WcTosEnv) (w0 : WcWalletTos) (ts : List Nat) (tm0 : Int)
        (t0 : Option (Option (List Nat))) (a0 : Option Int) (wh0 : Option Int),
      w0.terms = none → env.get_terms = (.WC_SUCCESS, some ts) →
      env.are_accepted = .ok (0, tm0) → env.show_terms = .ok 1 →
      env.gmtime_ok = true →
      wc_wallet_terms_of_service env (some w0) t0 a0 wh0
        = (.WC_SUCCESS, some ⟨some ts, 1, env.now_tm⟩,
           (match t0 with | none => none | some _ => some (some ts)),
           (match a0 with | none => none | some _ => some 1),
           (match wh0 with | none => none | some _ => some env.now_tm))) ∧
    (∀ (env : WcTosEnv) (p : WcErr) (wallet : Option WcWalletTos)
        (t0 : Option (Option (List Nat))) (a0 : Option Int) (wh0 : Option Int),
      wc_wallet_terms_of_service { env with accept_terms := p } wallet t0 a0 wh0
        = wc_wallet_terms_of_service env wallet t0 a0 wh0) ∧
    (∀ (env : WcTosEnv) (w0 : WcWalletTos)
        (t0 : Option (Option (List Nat))) (a0 : Option Int) (wh0 : Option Int),
      w0.terms = none → env.get_terms.1 ≠ .WC_SUCCESS →
      wc_wallet_terms_of_service env (some w0) t0 a0 wh0
        = (env.get_terms.1, some w0, t0, a0, wh0)) ∧
    (∀ (env : WcTosEnv) (w0 : WcWalletTos) (ts : List Nat) (e : WcErr)
        (t0 : Option (Option (List Nat))) (a0 : Option Int) (wh0 : Option Int),
      w0.terms = some ts → w0.accepted = 0 → env.are_accepted = .error e →
      e ≠ .WC_SUCCESS →
      wc_wallet_terms_of_service env (some w0) t0 a0 wh0
        = (e, some w0, t0, a0, wh0)) ∧
    (∀ (env : WcTosEnv) (w0 : WcWalletTos) (ts : List Nat) (tm0 : Int)
        (e : WcErr)
        (t0 : Option (Option (List Nat))) (a0 : Option Int) (wh0 : Option Int),
      w0.terms = some ts → w0.accepted = 0 → env.are_accepted = .ok (0, tm0) →
      env.show_terms = .error e → e ≠ .WC_SUCCESS →
      wc_wallet_terms_of_service env (some w0) t0 a0 wh0
        = (e, some ⟨some ts, 0, tm0⟩, t0, a0, wh0)) ∧
    (∀ (env : WcTosEnv) (w0 : WcWalletTos) (ts : List Nat) (tm0 : Int)
        (t0 : Option (Option (List Nat))) (a0 : Option Int) (wh0 : Option Int),
      w0.terms = some ts → w0.accepted = 0 → env.are_accepted = .ok (0, tm0) →
      env.show_terms = .ok 1 → env.gmtime_ok = false →
      wc_wallet_terms_of_service env (some w0) t0 a0 wh0
        = (.WC_ERROR_OVERFLOW, some ⟨some ts, 1, tm0⟩, t0, a0, wh0)) := by
  refine ⟨?_, ?_, ?_, ?_, ?_, ?_⟩
  · intro env w0 ts tm0 t0 a0 wh0 hterms hget hacc hshow hgm
    unfold wc_wallet_terms_of_service
    simp only [hterms, hget, hacc, hshow, hgm]
    cases t0 <;> cases a0 <;> cases wh0 <;> rfl
  · intro env p wallet t0 a0 wh0
    rfl
  · intro env w0 t0 a0 wh0 hterms hget
    unfold wc_wallet_terms_of_service
    simp only [hterms]
    rw [if_pos hget, if_pos hget]
  · intro env w0 ts e t0 a0 wh0 hterms hacc0 herr hene
    unfold wc_wallet_terms_of_service
    simp only [hterms, hacc0, herr]
    norm_num [hene]
  · intro env w0 ts tm0 e t0 a0 wh0 hterms hacc0 hacc hshow hene
    unfold wc_wallet_terms_of_service
    simp only [hterms, hacc0, hacc, hshow]
    norm_num [hene]
  · intro env w0 ts tm0 t0 a0 wh0 hterms hacc0 hacc hshow hgm
    unfold wc_wallet_terms_of_service
    simp only [hterms, hacc0, hacc, hshow, hgm]
    rfl

/-- Witness for C8: a wallet with no cached terms, a server returning terms
`"a"`, storage reporting not-yet-accepted, a user who accepts, and a
*failing* persistence call (`WC_ERROR_DB_CORRUPT`): the call still returns
`WC_SUCCESS` with `accepted = 1`. -/
theorem wc_wallet_terms_of_service_spec_witness :
    wc_wallet_terms_of_service
      ⟨(.WC_SUCCESS, some [97]), .ok (0, 5), .ok 1, .WC_ERROR_DB_CORRUPT, true, 9⟩
      (some ⟨none, 0, 0⟩) (some none) (some (-1)) (some 0)
      = (.WC_SUCCESS, some ⟨some [97], 1, 9⟩, some (some [97]), some 1, some 9) := by
  rw [wc_wallet_terms_of_service_spec.1 _ ⟨none, 0, 0⟩ [97] 5 (some none)
    (some (-1)) (some 0) rfl rfl rfl rfl rfl]
